import Mathlib

/-!
Verification of the AIMagna ETL orchestration engine against its
natural-language specification.

The Lean definitions below are shallow embeddings of the Python source:

* `find_join_path_bfs` embeds
  `src/transform_agent/main.py::find_join_path_bfs` (BFS over the
  foreign-key adjacency list),
* the mapper, validator, profiler, HITL-wait and orchestrator agents are
  embedded further down in this file.

Python dictionaries are modelled as association lists (first-key-wins
lookup, matching unique-key dicts), Python sets of visited nodes as lists
with membership, floats as exact rationals, and external collaborators
(embedding provider, Firestore store, BigQuery) as function parameters.
-/

/-- An edge entry of the foreign-key adjacency list, as built by
`load_source_schema_with_fks`: `{"target": …, "column": …, "references_column": …}`. -/
structure FKEdge where
  target : String
  column : String
  references_column : String
deriving Repr, DecidableEq

/-- The adjacency mapping `table → [edge]` (a Python dict modelled as an
association list). -/
abbrev AdjList := List (String × List FKEdge)

/-- `adj_list.get(current_table, [])` — first-match lookup with `[]` default. -/
def adjGet (adj : AdjList) (t : String) : List FKEdge :=
  match adj.find? (fun p => p.1 == t) with
  | some pr => pr.2
  | none => []

/-- The neighbour tables of `t` (the `edge["target"]` fields, in edge order). -/
def targetsOf (adj : AdjList) (t : String) : List String :=
  (adjGet adj t).map FKEdge.target

/-- The inner `for edge in adj_list.get(current_table, [])` loop of the BFS:
each unvisited neighbour is appended to the visited set and to the back of the
queue together with its extended path. -/
def expandEdges (path : List String) :
    List FKEdge → List (String × List String) → List String →
      List (String × List String) × List String
  | [], q, v => (q, v)
  | e :: es, q, v =>
    if e.target ∈ v then expandEdges path es q v
    else expandEdges path es (q ++ [(e.target, path ++ [e.target])]) (e.target :: v)

/-- The `while queue:` loop of `find_join_path_bfs`, with explicit fuel
(the fuel chosen in `find_join_path_bfs` is provably sufficient). -/
def bfsAux (adj : AdjList) (endTable : String) :
    Nat → List (String × List String) → List String → Option (List String)
  | 0, _, _ => none
  | _ + 1, [], _ => none
  | fuel + 1, (c, p) :: rest, v =>
    if c = endTable then some p
    else
      let qv := expandEdges p (adjGet adj c) rest v
      bfsAux adj endTable fuel qv.1 qv.2

/-- All `target` fields appearing anywhere in the adjacency list. -/
def allTargets (adj : AdjList) : List String :=
  (adj.map (fun p => p.2.map FKEdge.target)).flatten

/-- Fuel bound: one unit per possible enqueue plus one. -/
def bfsFuel (adj : AdjList) : Nat := (allTargets adj).length + 2

/-- `find_join_path_bfs(start_table, end_table, adj_list)` from
`src/transform_agent/main.py`: BFS returning the path as a list of table
names, or `None` when no path exists. -/
def find_join_path_bfs (start_table end_table : String) (adj : AdjList) :
    Option (List String) :=
  bfsAux adj end_table (bfsFuel adj) [(start_table, [start_table])] [start_table]

/-! ### Walks in the adjacency graph -/

/-- A walk from `start` to a table, recorded as the list of visited tables
(grown at the end, exactly as the BFS grows its paths). -/
inductive WalkTo (adj : AdjList) (start : String) : String → List String → Prop
  | base : WalkTo adj start start [start]
  | snoc {t n : String} {p : List String} (h : WalkTo adj start t p)
      (hn : n ∈ targetsOf adj t) : WalkTo adj start n (p ++ [n])

/-- A path in the claim's terms: begins at `s`, ends at `e`, and each
consecutive pair of tables is connected by an edge of the graph. -/
def IsTablePath (adj : AdjList) (s e : String) (p : List String) : Prop :=
  p ≠ [] ∧ p.head? = some s ∧ p.getLast? = some e ∧
    List.Chain' (fun a b => b ∈ targetsOf adj a) p

theorem WalkTo.ne_nil {adj start t p} (h : WalkTo adj start t p) : p ≠ [] := by
  cases h <;> simp

theorem WalkTo.length_pos {adj start t p} (h : WalkTo adj start t p) :
    0 < p.length := by
  cases h <;> simp

theorem WalkTo.head_eq {adj start t p} (h : WalkTo adj start t p) :
    p.head? = some start := by
  induction h with
  | base => rfl
  | snoc h hn ih =>
    rename_i t n p
    rcases p with _ | ⟨a, p⟩
    · exact absurd rfl h.ne_nil
    · simpa using ih

theorem WalkTo.getLast_eq {adj start t p} (h : WalkTo adj start t p) :
    p.getLast? = some t := by
  induction h with
  | base => rfl
  | snoc h hn ih => simp [List.getLast?_append]

theorem WalkTo.chain {adj start t p} (h : WalkTo adj start t p) :
    List.Chain' (fun a b => b ∈ targetsOf adj a) p := by
  induction h with
  | base => simp
  | snoc h hn ih =>
    rename_i t n p
    rw [List.chain'_append]
    refine ⟨ih, by simp, ?_⟩
    intro x hx y hy
    simp only [List.head?_cons, Option.mem_def, Option.some.injEq] at hy
    subst hy
    rw [h.getLast_eq] at hx
    simp only [Option.mem_def, Option.some.injEq] at hx
    subst hx
    exact hn

theorem WalkTo.last_mem {adj start t p} (h : WalkTo adj start t p) : t ∈ p := by
  cases h <;> simp

theorem WalkTo.isTablePath {adj start t p} (h : WalkTo adj start t p) :
    IsTablePath adj start t p :=
  ⟨h.ne_nil, h.head_eq, h.getLast_eq, h.chain⟩

theorem isTablePath_walkTo {adj : AdjList} {s e : String} {p : List String}
    (h : IsTablePath adj s e p) : WalkTo adj s e p := by
  obtain ⟨hne, hhead, hlast, hchain⟩ := h
  induction p using List.reverseRecOn generalizing e with
  | nil => exact absurd rfl hne
  | append_singleton q x ih =>
    rcases q with _ | ⟨a, q⟩
    · simp at hhead hlast
      subst hhead; subst hlast
      exact WalkTo.base
    · have hq : (a :: q).getLast? = some ((a :: q).getLast (by simp)) := by
        simp [List.getLast?_eq_getLast]
      rw [List.chain'_append] at hchain
      obtain ⟨hc1, _, hc3⟩ := hchain
      have hx : x ∈ targetsOf adj ((a :: q).getLast (by simp)) := by
        apply hc3 _ hq
        simp
      have hlast2 : ((a :: q) ++ [x]).getLast? = some x := by
        rw [List.getLast?_append_cons]; rfl
      rw [show (a :: q ++ [x]) = ((a :: q) ++ [x]) from rfl, hlast2] at hlast
      have hxe : e = x := by
        simpa using hlast.symm
      subst hxe
      have hw : WalkTo adj s ((a :: q).getLast (by simp)) (a :: q) := by
        apply ih
        · simp
        · simpa using hhead
        · exact hq
        · exact hc1
      exact hw.snoc hx

/-! ### Decomposition of the edge-expansion loop -/

/-- The queue entries appended by one run of the edge loop. -/
def expandNew (path : List String) : List FKEdge → List String → List (String × List String)
  | [], _ => []
  | e :: es, v =>
    if e.target ∈ v then expandNew path es v
    else (e.target, path ++ [e.target]) :: expandNew path es (e.target :: v)

/-- The visited set after one run of the edge loop. -/
def expandVis : List FKEdge → List String → List String
  | [], v => v
  | e :: es, v => if e.target ∈ v then expandVis es v else expandVis es (e.target :: v)

theorem expandEdges_eq (path : List String) :
    ∀ (es : List FKEdge) (q : List (String × List String)) (v : List String),
      expandEdges path es q v = (q ++ expandNew path es v, expandVis es v) := by
  intro es
  induction es with
  | nil => intro q v; simp [expandEdges, expandNew, expandVis]
  | cons e es ih =>
    intro q v
    by_cases h : e.target ∈ v
    · simp [expandEdges, expandNew, expandVis, h, ih]
    · simp [expandEdges, expandNew, expandVis, h, ih]

theorem mem_expandVis {x : String} :
    ∀ {es : List FKEdge} {v : List String},
      x ∈ expandVis es v ↔ x ∈ v ∨ x ∈ es.map FKEdge.target := by
  intro es
  induction es with
  | nil => intro v; simp [expandVis]
  | cons e es ih =>
    intro v
    by_cases h : e.target ∈ v
    · simp only [expandVis, h, if_true, ih, List.map_cons, List.mem_cons]
      constructor
      · rintro (hv | ht)
        · exact Or.inl hv
        · exact Or.inr (Or.inr ht)
      · rintro (hv | he | ht)
        · exact Or.inl hv
        · exact Or.inl (he ▸ h)
        · exact Or.inr ht
    · simp only [expandVis, h, if_false, ih, List.map_cons, List.mem_cons]
      tauto

theorem subset_expandVis {es : List FKEdge} {v : List String} :
    v ⊆ expandVis es v := fun _ hx => mem_expandVis.mpr (Or.inl hx)

theorem expandNew_spec (path : List String) :
    ∀ {es : List FKEdge} {v : List String}, ∀ e ∈ expandNew path es v,
      e.2 = path ++ [e.1] ∧ e.1 ∈ es.map FKEdge.target ∧ e.1 ∉ v := by
  intro es
  induction es with
  | nil => intro v e he; simp [expandNew] at he
  | cons a es ih =>
    intro v e he
    by_cases h : a.target ∈ v
    · simp only [expandNew, h, if_true] at he
      obtain ⟨h1, h2, h3⟩ := ih e he
      exact ⟨h1, by simp [h2], h3⟩
    · simp only [expandNew, h, if_false, List.mem_cons] at he
      rcases he with he | he
      · subst he
        exact ⟨rfl, by simp, h⟩
      · obtain ⟨h1, h2, h3⟩ := ih e he
        refine ⟨h1, by simp [h2], fun hv => h3 ?_⟩
        exact List.mem_cons_of_mem _ hv

theorem expandNew_firsts_nodup (path : List String) :
    ∀ {es : List FKEdge} {v : List String},
      ((expandNew path es v).map Prod.fst).Nodup := by
  intro es
  induction es with
  | nil => intro v; simp [expandNew]
  | cons a es ih =>
    intro v
    by_cases h : a.target ∈ v
    · simp only [expandNew, h, if_true]; exact ih
    · simp only [expandNew, h, if_false, List.map_cons, List.nodup_cons]
      refine ⟨?_, ih⟩
      intro hmem
      obtain ⟨e, he, hfst⟩ := List.mem_map.mp hmem
      have := (expandNew_spec path e he).2.2
      exact this (hfst ▸ List.mem_cons_self _ _)

theorem expandNew_fst_mem_vis (path : List String) {es : List FKEdge}
    {v : List String} {e : String × List String} (he : e ∈ expandNew path es v) :
    e.1 ∈ expandVis es v :=
  mem_expandVis.mpr (Or.inr (expandNew_spec path e he).2.1)

theorem expandVis_mem_new (path : List String) :
    ∀ {es : List FKEdge} {v x}, x ∈ expandVis es v → x ∉ v →
      x ∈ (expandNew path es v).map Prod.fst := by
  intro es
  induction es with
  | nil => intro v x hx hnv; exact absurd hx hnv
  | cons a es ih =>
    intro v x hx hnv
    by_cases h : a.target ∈ v
    · simp only [expandVis, h, if_true] at hx
      simp only [expandNew, h, if_true]
      exact ih hx hnv
    · simp only [expandVis, h, if_false] at hx
      simp only [expandNew, h, if_false, List.map_cons, List.mem_cons]
      by_cases hxa : x = a.target
      · exact Or.inl hxa
      · refine Or.inr (ih hx ?_)
        intro hc
        rcases List.mem_cons.mp hc with hc | hc
        · exact hxa hc
        · exact hnv hc

/-! ### The termination measure -/

/-- Number of distinct edge targets not yet visited. -/
def unvisitedCount (adj : AdjList) (v : List String) : Nat :=
  ((allTargets adj).toFinset \ v.toFinset).card

theorem unvisitedCount_cons {adj : AdjList} {t : String} {v : List String}
    (ht : t ∈ allTargets adj) (htv : t ∉ v) :
    unvisitedCount adj (t :: v) + 1 = unvisitedCount adj v := by
  unfold unvisitedCount
  rw [List.toFinset_cons, Finset.sdiff_insert]
  have hmem : t ∈ (allTargets adj).toFinset \ v.toFinset := by
    rw [Finset.mem_sdiff, List.mem_toFinset, List.mem_toFinset]
    exact ⟨ht, htv⟩
  rw [Finset.card_erase_of_mem hmem]
  have : 0 < ((allTargets adj).toFinset \ v.toFinset).card :=
    Finset.card_pos.mpr ⟨t, hmem⟩
  omega

theorem expand_measure (path : List String) {adj : AdjList} :
    ∀ {es : List FKEdge} {v : List String}, (∀ e ∈ es, e.target ∈ allTargets adj) →
      (expandNew path es v).length + unvisitedCount adj (expandVis es v) ≤
        unvisitedCount adj v := by
  intro es
  induction es with
  | nil => intro v _; simp [expandNew, expandVis]
  | cons a es ih =>
    intro v hes
    by_cases h : a.target ∈ v
    · simp only [expandNew, expandVis, h, if_true]
      exact ih (fun e he => hes e (List.mem_cons_of_mem _ he))
    · simp only [expandNew, expandVis, h, if_false, List.length_cons]
      have hmeas := unvisitedCount_cons (hes a (List.mem_cons_self _ _)) h
      have := ih (v := a.target :: v) (fun e he => hes e (List.mem_cons_of_mem _ he))
      omega

theorem unvisitedCount_le (adj : AdjList) (v : List String) :
    unvisitedCount adj v ≤ (allTargets adj).length := by
  calc ((allTargets adj).toFinset \ v.toFinset).card
      ≤ (allTargets adj).toFinset.card := Finset.card_le_card (Finset.sdiff_subset)
    _ ≤ (allTargets adj).length := List.toFinset_card_le _

/-! ### The BFS loop invariant -/

/-- Invariant of the BFS loop state `(queue, visited)`. -/
structure BfsInv (adj : AdjList) (start endTable : String)
    (q : List (String × List String)) (v : List String) : Prop where
  walk : ∀ e ∈ q, WalkTo adj start e.1 e.2
  nodup : ∀ e ∈ q, e.2.Nodup
  inVisited : ∀ e ∈ q, ∀ x ∈ e.2, x ∈ v
  startMem : start ∈ v
  sorted : List.Pairwise (· ≤ ·) (q.map (fun e => e.2.length))
  span : ∀ e ∈ q, ∀ e₁, q.head? = some e₁ → e.2.length ≤ e₁.2.length + 1
  minimal : ∀ e ∈ q, ∀ w, WalkTo adj start e.1 w → e.2.length ≤ w.length
  close : ∀ x w, WalkTo adj start x w →
    (∃ e₁, q.head? = some e₁ ∧ w.length < e₁.2.length) → x ∈ v
  visitedClosed : ∀ x ∈ v, (∃ e ∈ q, e.1 = x) ∨ (∀ n ∈ targetsOf adj x, n ∈ v)
  endNotPassed : endTable ∈ v → ∃ e ∈ q, e.1 = endTable
  firstsNodup : (q.map Prod.fst).Nodup

theorem adjGet_target_mem {adj : AdjList} {t : String} :
    ∀ e ∈ adjGet adj t, e.target ∈ allTargets adj := by
  intro e he
  unfold adjGet at he
  split at he
  next pr hf =>
    have hpr : pr ∈ adj := List.mem_of_find?_eq_some hf
    unfold allTargets
    rw [List.mem_flatten]
    exact ⟨pr.2.map FKEdge.target, List.mem_map_of_mem _ hpr, List.mem_map_of_mem _ he⟩
  next => simp at he

theorem sorted_head_le {c : String} {p : List String}
    {rest : List (String × List String)}
    (hs : List.Pairwise (· ≤ ·) (((c, p) :: rest).map (fun e => e.2.length))) :
    ∀ e ∈ rest, p.length ≤ e.2.length := by
  intro e he
  simp only [List.map_cons, List.pairwise_cons] at hs
  exact hs.1 _ (List.mem_map_of_mem _ he)

/-- Key minimality fact: when the head `(c, p)` of the queue is expanded, any
node not yet visited admits no walk with fewer than `p.length + 1` tables. -/
theorem new_node_min {adj : AdjList} {start endTable c : String} {p : List String}
    {rest : List (String × List String)} {v : List String}
    (hInv : BfsInv adj start endTable ((c, p) :: rest) v)
    {n : String} (hn : n ∉ v) :
    ∀ w, WalkTo adj start n w → p.length + 1 ≤ w.length := by
  intro w hw
  by_contra hlt
  push_neg at hlt
  have hle : w.length ≤ p.length := Nat.lt_succ_iff.mp hlt
  rcases lt_or_eq_of_le hle with hlt2 | heq
  · exact hn (hInv.close n w hw ⟨(c, p), rfl, hlt2⟩)
  · cases hw with
    | base => exact hn hInv.startMem
    | snoc hw2 hmem =>
      rename_i t p2
      have hp2 : p2.length + 1 = p.length := by simpa using heq
      have ht_v : t ∈ v :=
        hInv.close t p2 hw2 ⟨(c, p), rfl, by show p2.length < p.length; omega⟩
      rcases hInv.visitedClosed t ht_v with ⟨e, he, hfst⟩ | hclosed
      · rcases List.mem_cons.mp he with he | he
        · subst he
          have h4 : p.length ≤ p2.length :=
            hInv.minimal (c, p) (List.mem_cons_self _ _) p2 (hfst ▸ hw2)
          omega
        · have hmin := hInv.minimal e (List.mem_cons_of_mem _ he) p2 (hfst ▸ hw2)
          have hlen := sorted_head_le hInv.sorted e he
          omega
      · exact hn (hclosed n hmem)

/-- After expanding the head `(c, p)`, every node with a walk of at most
`p.length` tables is visited. -/
theorem close_step {adj : AdjList} {start endTable c : String} {p : List String}
    {rest : List (String × List String)} {v : List String}
    (hInv : BfsInv adj start endTable ((c, p) :: rest) v) :
    ∀ x w, WalkTo adj start x w → w.length ≤ p.length →
      x ∈ expandVis (adjGet adj c) v := by
  intro x w hw hlen
  rcases lt_or_eq_of_le hlen with hlt | heq
  · exact subset_expandVis (hInv.close x w hw ⟨(c, p), rfl, hlt⟩)
  · cases hw with
    | base => exact subset_expandVis hInv.startMem
    | snoc hw2 hmem =>
      rename_i t p2
      have hp2 : p2.length + 1 = p.length := by simpa using heq
      have ht_v : t ∈ v :=
        hInv.close t p2 hw2 ⟨(c, p), rfl, by show p2.length < p.length; omega⟩
      rcases hInv.visitedClosed t ht_v with ⟨e, he, hfst⟩ | hclosed
      · rcases List.mem_cons.mp he with he | he
        · subst he
          have hfst2 : c = t := hfst
          rw [← hfst2] at hmem
          exact mem_expandVis.mpr (Or.inr hmem)
        · have hmin := hInv.minimal e (List.mem_cons_of_mem _ he) p2 (hfst ▸ hw2)
          have hlen2 := sorted_head_le hInv.sorted e he
          omega
      · exact subset_expandVis (hclosed x hmem)

theorem pairwise_le_of_const {k : Nat} :
    ∀ {l : List Nat}, (∀ a ∈ l, a = k) → List.Pairwise (· ≤ ·) l := by
  intro l
  induction l with
  | nil => intro _; simp
  | cons a l ih =>
    intro h
    rw [List.pairwise_cons]
    refine ⟨?_, ih fun b hb => h b (List.mem_cons_of_mem _ hb)⟩
    intro b hb
    rw [h a (List.mem_cons_self _ _), h b (List.mem_cons_of_mem _ hb)]

theorem head_eq_some_mem {α : Type} {l : List α} {a : α}
    (h : l.head? = some a) : a ∈ l := by
  cases l with
  | nil => simp at h
  | cons b t =>
    simp only [List.head?_cons, Option.some.injEq] at h
    exact h ▸ List.mem_cons_self _ _

/-- One BFS step (pop + expand) preserves the invariant. -/
theorem bfsInv_step {adj : AdjList} {start endTable c : String} {p : List String}
    {rest : List (String × List String)} {v : List String}
    (hInv : BfsInv adj start endTable ((c, p) :: rest) v) (hc : c ≠ endTable) :
    BfsInv adj start endTable (rest ++ expandNew p (adjGet adj c) v)
      (expandVis (adjGet adj c) v) := by
  have hwp : WalkTo adj start c p := hInv.walk (c, p) (List.mem_cons_self _ _)
  have hpn : p.Nodup := hInv.nodup (c, p) (List.mem_cons_self _ _)
  have hpv : ∀ x ∈ p, x ∈ v := hInv.inVisited (c, p) (List.mem_cons_self _ _)
  have hrest_lo : ∀ e ∈ rest, p.length ≤ e.2.length := sorted_head_le hInv.sorted
  have hrest_hi : ∀ e ∈ rest, e.2.length ≤ p.length + 1 := fun e he =>
    hInv.span e (List.mem_cons_of_mem _ he) (c, p) rfl
  have hnew := @expandNew_spec p (adjGet adj c) v
  refine ⟨?_, ?_, ?_, ?_, ?_, ?_, ?_, ?_, ?_, ?_, ?_⟩
  · -- walk
    intro e he
    rcases List.mem_append.mp he with he | he
    · exact hInv.walk e (List.mem_cons_of_mem _ he)
    · obtain ⟨h1, h2, h3⟩ := hnew e he
      rw [h1]
      exact hwp.snoc h2
  · -- nodup
    intro e he
    rcases List.mem_append.mp he with he | he
    · exact hInv.nodup e (List.mem_cons_of_mem _ he)
    · obtain ⟨h1, h2, h3⟩ := hnew e he
      rw [h1, List.nodup_append]
      refine ⟨hpn, List.nodup_singleton _, ?_⟩
      intro a ha hb
      simp only [List.mem_singleton] at hb
      subst hb
      exact h3 (hpv _ ha)
  · -- inVisited
    intro e he x hx
    rcases List.mem_append.mp he with he | he
    · exact subset_expandVis (hInv.inVisited e (List.mem_cons_of_mem _ he) x hx)
    · obtain ⟨h1, h2, h3⟩ := hnew e he
      rw [h1] at hx
      rcases List.mem_append.mp hx with hx | hx
      · exact subset_expandVis (hpv x hx)
      · simp only [List.mem_singleton] at hx
        subst hx
        exact expandNew_fst_mem_vis p he
  · -- startMem
    exact subset_expandVis hInv.startMem
  · -- sorted
    rw [List.map_append, List.pairwise_append]
    refine ⟨?_, ?_, ?_⟩
    · have h0 := hInv.sorted
      simp only [List.map_cons, List.pairwise_cons] at h0
      exact h0.2
    · apply @pairwise_le_of_const (p.length + 1) _
      intro a ha
      obtain ⟨e, he, hea⟩ := List.mem_map.mp ha
      obtain ⟨h1, _, _⟩ := hnew e he
      rw [← hea, h1]
      simp
    · intro a ha b hb
      obtain ⟨e, he, hea⟩ := List.mem_map.mp ha
      obtain ⟨f, hf, hfb⟩ := List.mem_map.mp hb
      obtain ⟨h1, _, _⟩ := hnew f hf
      have h2 := hrest_hi e he
      rw [← hea]
      rw [← hfb, h1]
      simp only [List.length_append, List.length_cons, List.length_nil]
      omega
  · -- span
    intro e he e₁ he₁
    cases rest with
    | nil =>
      simp only [List.nil_append] at he he₁
      have he₁m := head_eq_some_mem he₁
      obtain ⟨h1, _, _⟩ := hnew e he
      obtain ⟨h2, _, _⟩ := hnew e₁ he₁m
      rw [h1, h2]
      simp
    | cons r0 rs =>
      have he₁r : e₁ = r0 := by
        simp only [List.cons_append, List.head?_cons, Option.some.injEq] at he₁
        exact he₁.symm
      subst he₁r
      have hr0 : p.length ≤ e₁.2.length :=
        hrest_lo e₁ (List.mem_cons_self _ _)
      rcases List.mem_append.mp he with he | he
      · have := hrest_hi e he
        omega
      · obtain ⟨h1, _, _⟩ := hnew e he
        rw [h1]
        simp only [List.length_append, List.length_cons, List.length_nil]
        omega
  · -- minimal
    intro e he w hw
    rcases List.mem_append.mp he with he | he
    · exact hInv.minimal e (List.mem_cons_of_mem _ he) w hw
    · obtain ⟨h1, h2, h3⟩ := hnew e he
      rw [h1]
      simp only [List.length_append, List.length_cons, List.length_nil]
      have := new_node_min hInv h3 w hw
      omega
  · -- close
    rintro x w hw ⟨e₁, he₁, hlt⟩
    have he₁m : e₁ ∈ rest ++ expandNew p (adjGet adj c) v := head_eq_some_mem he₁
    have hbound : e₁.2.length ≤ p.length + 1 := by
      rcases List.mem_append.mp he₁m with h | h
      · exact hrest_hi e₁ h
      · obtain ⟨h1, _, _⟩ := hnew e₁ h
        rw [h1]
        simp
    exact close_step hInv x w hw (by omega)
  · -- visitedClosed
    intro x hx
    by_cases hxv : x ∈ v
    · rcases hInv.visitedClosed x hxv with ⟨e, he, hfst⟩ | hcl
      · rcases List.mem_cons.mp he with he | he
        · right
          intro n hn2
          subst he
          have hcx : c = x := hfst
          rw [← hcx] at hn2
          exact mem_expandVis.mpr (Or.inr hn2)
        · exact Or.inl ⟨e, List.mem_append_left _ he, hfst⟩
      · exact Or.inr fun n hn2 => subset_expandVis (hcl n hn2)
    · have hmem := expandVis_mem_new p hx hxv
      obtain ⟨e, he, hfst⟩ := List.mem_map.mp hmem
      exact Or.inl ⟨e, List.mem_append_right _ he, hfst⟩
  · -- endNotPassed
    intro hend
    by_cases hv : endTable ∈ v
    · obtain ⟨e, he, hfst⟩ := hInv.endNotPassed hv
      rcases List.mem_cons.mp he with he | he
      · subst he
        exact absurd hfst hc
      · exact ⟨e, List.mem_append_left _ he, hfst⟩
    · have hmem := expandVis_mem_new p hend hv
      obtain ⟨e, he, hfst⟩ := List.mem_map.mp hmem
      exact ⟨e, List.mem_append_right _ he, hfst⟩
  · -- firstsNodup
    rw [List.map_append, List.nodup_append]
    refine ⟨?_, expandNew_firsts_nodup p, ?_⟩
    · have h0 := hInv.firstsNodup
      simp only [List.map_cons] at h0
      exact (List.nodup_cons.mp h0).2
    · intro a ha hb
      obtain ⟨e, he, hea⟩ := List.mem_map.mp ha
      obtain ⟨f, hf, hfb⟩ := List.mem_map.mp hb
      have hwe := hInv.walk e (List.mem_cons_of_mem _ he)
      have hmem2 : e.1 ∈ e.2 := hwe.last_mem
      have hav : a ∈ v := by
        rw [← hea]
        exact hInv.inVisited e (List.mem_cons_of_mem _ he) e.1 hmem2
      have hnf := (hnew f hf).2.2
      apply hnf
      rw [hfb]
      exact hav

/-- Initial BFS state satisfies the invariant. -/
theorem bfsInv_init (adj : AdjList) (start endTable : String) :
    BfsInv adj start endTable [(start, [start])] [start] := by
  refine ⟨?_, ?_, ?_, ?_, ?_, ?_, ?_, ?_, ?_, ?_, ?_⟩
  · intro e he
    simp only [List.mem_singleton] at he
    subst he
    exact WalkTo.base
  · intro e he
    simp only [List.mem_singleton] at he
    subst he
    simp
  · intro e he x hx
    simp only [List.mem_singleton] at he
    subst he
    simpa using hx
  · simp
  · simp
  · intro e he e₁ he₁
    simp only [List.mem_singleton] at he
    simp only [List.head?_cons, Option.some.injEq] at he₁
    subst he
    subst he₁
    simp
  · intro e he w hw
    simp only [List.mem_singleton] at he
    subst he
    have := hw.length_pos
    simpa using this
  · rintro x w hw ⟨e₁, he₁, hlt⟩
    simp only [List.head?_cons, Option.some.injEq] at he₁
    subst he₁
    simp only [List.length_cons, List.length_nil] at hlt
    have := hw.length_pos
    omega
  · intro x hx
    simp only [List.mem_singleton] at hx
    subst hx
    exact Or.inl ⟨(x, [x]), List.mem_cons_self _ _, rfl⟩
  · intro hend
    simp only [List.mem_singleton] at hend
    exact ⟨(start, [start]), List.mem_cons_self _ _, hend.symm⟩
  · simp

/-- Main BFS correctness: with sufficient fuel and a valid invariant state,
a `some` result is a shortest walk to the target and a `none` result means
the target is unreachable. -/
theorem bfsAux_correct (adj : AdjList) (start endTable : String) :
    ∀ (fuel : Nat) (q : List (String × List String)) (v : List String),
      BfsInv adj start endTable q v →
      q.length + unvisitedCount adj v < fuel →
      (∀ p, bfsAux adj endTable fuel q v = some p →
          WalkTo adj start endTable p ∧ p.Nodup ∧
            ∀ w, WalkTo adj start endTable w → p.length ≤ w.length) ∧
      (bfsAux adj endTable fuel q v = none →
          ∀ w, ¬ WalkTo adj start endTable w) := by
  intro fuel
  induction fuel with
  | zero => intro q v _ hM; omega
  | succ fuel ih =>
    intro q v hInv hM
    match q with
    | [] =>
      constructor
      · intro p hp
        simp [bfsAux] at hp
      · intro _ w hw
        have hall : ∀ x wx, WalkTo adj start x wx → x ∈ v := by
          intro x wx hwx
          induction hwx with
          | base => exact hInv.startMem
          | snoc h2 hmem ih2 =>
            rcases hInv.visitedClosed _ ih2 with ⟨e, he, _⟩ | hcl
            · simp at he
            · exact hcl _ hmem
        obtain ⟨e, he, _⟩ := hInv.endNotPassed (hall endTable w hw)
        simp at he
    | (c, p) :: rest =>
      by_cases hc : c = endTable
      · subst hc
        constructor
        · intro p0 hp0
          simp only [bfsAux, if_pos rfl] at hp0
          obtain rfl : p = p0 := by simpa using hp0
          have hmem : (c, p) ∈ (c, p) :: rest := List.mem_cons_self _ _
          exact ⟨hInv.walk _ hmem, hInv.nodup _ hmem, hInv.minimal _ hmem⟩
        · intro hnone
          simp [bfsAux] at hnone
      · have hstep := bfsInv_step hInv hc
        have hmeas : (rest ++ expandNew p (adjGet adj c) v).length +
            unvisitedCount adj (expandVis (adjGet adj c) v) <
              fuel := by
          have h1 := @expand_measure p adj (adjGet adj c) v
            (fun e he => adjGet_target_mem e he)
          simp only [List.length_append, List.length_cons] at hM ⊢
          omega
        have hrec := ih _ _ hstep hmeas
        have hred : bfsAux adj endTable (fuel + 1) ((c, p) :: rest) v =
            bfsAux adj endTable fuel (rest ++ expandNew p (adjGet adj c) v)
              (expandVis (adjGet adj c) v) := by
          simp only [bfsAux, if_neg hc, expandEdges_eq]
        rw [hred]
        exact hrec

/-- Full specification of `find_join_path_bfs`:
a returned path begins at `s`, ends at `e`, repeats no table, has each
consecutive pair connected by an edge, and has minimal length among all
paths from `s` to `e`; the result is `none` exactly when `e` is
unreachable from `s`. -/
theorem find_join_path_bfs_spec (adj : AdjList) (s e : String) :
    (∀ p, find_join_path_bfs s e adj = some p →
        p.head? = some s ∧ p.getLast? = some e ∧ p.Nodup ∧
          List.Chain' (fun a b => b ∈ targetsOf adj a) p ∧
          ∀ q, IsTablePath adj s e q → p.length ≤ q.length) ∧
    (find_join_path_bfs s e adj = none ↔ ¬ ∃ q, IsTablePath adj s e q) := by
  have hM : ([(s, [s])] : List (String × List String)).length +
      unvisitedCount adj [s] < bfsFuel adj := by
    have := unvisitedCount_le adj [s]
    simp only [List.length_singleton, bfsFuel]
    omega
  have h := bfsAux_correct adj s e (bfsFuel adj) [(s, [s])] [s]
    (bfsInv_init adj s e) hM
  constructor
  · intro p hp
    obtain ⟨hw, hnd, hmin⟩ := h.1 p hp
    exact ⟨hw.head_eq, hw.getLast_eq, hnd, hw.chain,
      fun q hq => hmin q (isTablePath_walkTo hq)⟩
  · constructor
    · intro hnone ⟨q, hq⟩
      exact h.2 hnone q (isTablePath_walkTo hq)
    · intro hnex
      cases hres : find_join_path_bfs s e adj with
      | none => rfl
      | some p =>
        obtain ⟨hw, _, _⟩ := h.1 p hres
        exact absurd ⟨p, hw.isTablePath⟩ hnex

/-- C1: For every foreign-key adjacency graph and every pair of tables
(start, end), `find_join_path_bfs start end graph` returns a path that begins
at start, ends at end, repeats no table, has each consecutive pair of tables
connected by an edge of the graph, and has minimal edge count among all such
paths; it returns `none` exactly when the end table is unreachable from the
start table. -/
theorem claim_C1_bfs_shortest_path (adj : AdjList) (s e : String) :
    (∀ p, find_join_path_bfs s e adj = some p →
        p.head? = some s ∧ p.getLast? = some e ∧ p.Nodup ∧
          List.Chain' (fun a b => b ∈ targetsOf adj a) p ∧
          ∀ q, IsTablePath adj s e q → p.length ≤ q.length) ∧
    (find_join_path_bfs s e adj = none ↔ ¬ ∃ q, IsTablePath adj s e q) :=
  find_join_path_bfs_spec adj s e

/-- The spec scenario graph: `A.id ↔ B.a_id`, `B.id ↔ C.b_id`. -/
def adjABC : AdjList :=
  [("A", [⟨"B", "id", "a_id"⟩]),
   ("B", [⟨"A", "a_id", "id"⟩, ⟨"C", "id", "b_id"⟩]),
   ("C", [⟨"B", "b_id", "id"⟩])]

theorem claim_C1_witness :
    find_join_path_bfs "A" "C" adjABC = some ["A", "B", "C"] ∧
      (["A", "B", "C"] : List String).Nodup ∧
      (["A", "B", "C"] : List String).head? = some "A" := by
  have hres : find_join_path_bfs "A" "C" adjABC = some ["A", "B", "C"] := by decide
  have h := (claim_C1_bfs_shortest_path adjABC "A" "C").1 _ hres
  exact ⟨hres, h.2.2.1, h.1⟩

/-! ### Mapper agent (`src/mapper_agent/main.py::run_mapper`)

Embedding vectors and cosine similarity are supplied by the external
Vertex AI collaborator; they are modelled by an abstract embedding type and
a score function valued in exact rationals (Python floats modelled as ℚ). -/

/-- A mapping candidate dict as built by `run_mapper`. -/
structure MappingCandidate where
  source_column : String
  target_column : String
  confidence : ℚ
  rationale : String
deriving Repr, DecidableEq

/-- The inner `for j, target_embedding in enumerate(...)` loop:
running best score and best index, updated on strict improvement
(`if similarity > best_match_score`). -/
def bestMatchAux : List ℚ → Nat → ℚ → Int → ℚ × Int
  | [], _, bs, bi => (bs, bi)
  | s :: rest, j, bs, bi =>
    if bs < s then bestMatchAux rest (j + 1) s (Int.ofNat j)
    else bestMatchAux rest (j + 1) bs bi

/-- `best_match_score = -1; best_match_index = -1` then the scan loop. -/
def bestMatch (sims : List ℚ) : ℚ × Int := bestMatchAux sims 0 (-1) (-1)

/-- One iteration of the outer source-column loop of `run_mapper`: compute all
similarities against the targets, take the best, and emit a candidate iff the
best score strictly exceeds the threshold `0.9`. -/
def candidateFor {α β : Type} (sim : α → β → ℚ) (targets : List (String × β))
    (src : String × α) : Option MappingCandidate :=
  let sims := targets.map (fun t => sim src.2 t.2)
  let best := bestMatch sims
  if (9 : ℚ) / 10 < best.1 then
    some { source_column := src.1,
           target_column := (targets.map Prod.fst).getD best.2.toNat "",
           confidence := best.1,
           rationale := "Best semantic match with score: " ++ toString best.1 }
  else none

/-- The similarity-matching core of `run_mapper` over prepared
(info, embedding) pairs. -/
def runMapperCore {α β : Type} (sim : α → β → ℚ) (sources : List (String × α))
    (targets : List (String × β)) : List MappingCandidate :=
  sources.filterMap (candidateFor sim targets)

/-- A table schema as seen by the mapper: a table name and its column names. -/
structure TableSchema where
  table_name : String
  columns : List String
deriving Repr, DecidableEq

/-- `f"Table {t} with columns: {', '.join(names)}."` -/
def tableContext (t : TableSchema) : String :=
  "Table " ++ t.table_name ++ " with columns: " ++
    String.intercalate ", " t.columns ++ "."

/-- The (column info, column document) pairs prepared by `run_mapper`, in
order (descriptions are empty for both profiled and parsed schemas). -/
def columnDocs (tables : List TableSchema) : List (String × String) :=
  (tables.map (fun t => t.columns.map (fun c =>
    (t.table_name ++ "." ++ c,
     tableContext t ++ " Column: " ++ c ++ ". Description: ")))).flatten

/-- The set of declared `table.column` names of a schema. -/
def declaredColumns (tables : List TableSchema) : List String :=
  (tables.map (fun t => t.columns.map (fun c => t.table_name ++ "." ++ c))).flatten

/-- `run_mapper`: prepare source/target column documents, obtain one embedding
per document from the external provider (`embed`), then match by similarity.
Returns `[]` when either side has no columns. -/
def run_mapper {α : Type} (embed : String → α) (sim : α → α → ℚ)
    (sourceTables targetTables : List TableSchema) : List MappingCandidate :=
  if ((columnDocs sourceTables).map (fun p => (p.1, embed p.2))).isEmpty ||
      ((columnDocs targetTables).map (fun p => (p.1, embed p.2))).isEmpty then []
  else
    runMapperCore sim ((columnDocs sourceTables).map (fun p => (p.1, embed p.2)))
      ((columnDocs targetTables).map (fun p => (p.1, embed p.2)))

/-- Characterization of the best-match scan: either no element beats the
initial score (state returned unchanged), or the result is the value and
index of the first occurrence of the maximum. -/
theorem bestMatchAux_spec :
    ∀ (sims : List ℚ) (j : Nat) (bs : ℚ) (bi : Int),
      (bestMatchAux sims j bs bi = (bs, bi) ∧ ∀ s ∈ sims, s ≤ bs) ∨
      (∃ i : Fin sims.length,
        bestMatchAux sims j bs bi = (sims.get i, Int.ofNat (j + i.val)) ∧
        bs < sims.get i ∧
        (∀ s ∈ sims, s ≤ sims.get i) ∧
        (∀ k : Fin sims.length, k.val < i.val → sims.get k < sims.get i)) := by
  intro sims
  induction sims with
  | nil =>
    intro j bs bi
    exact Or.inl ⟨rfl, by simp⟩
  | cons s rest ih =>
    intro j bs bi
    by_cases h : bs < s
    · have hstep : bestMatchAux (s :: rest) j bs bi =
          bestMatchAux rest (j + 1) s (Int.ofNat j) := by
        simp [bestMatchAux, h]
      rcases ih (j + 1) s (Int.ofNat j) with ⟨heq, hle⟩ | ⟨i, heq, hlt, hmax, hfirst⟩
      · refine Or.inr ⟨⟨0, by simp⟩, ?_, ?_, ?_, ?_⟩
        · rw [hstep, heq]
          simp
        · simpa using h
        · intro x hx
          rcases List.mem_cons.mp hx with hx | hx
          · subst hx; simp
          · simpa using hle x hx
        · intro k hk
          simp at hk
      · refine Or.inr ⟨⟨i.val + 1, by simp [Nat.succ_lt_succ i.isLt]⟩, ?_, ?_, ?_, ?_⟩
        · rw [hstep, heq]
          have : (j + 1) + i.val = j + (i.val + 1) := by omega
          simp [List.get_cons_succ, this]
        · have h2 : s < rest.get i := hlt
          simpa using lt_trans h h2
        · intro x hx
          rcases List.mem_cons.mp hx with hx | hx
          · subst hx
            simpa using le_of_lt hlt
          · simpa using hmax x hx
        · intro k hk
          rcases k with ⟨kv, hkv⟩
          match kv, hkv with
          | 0, hkv => simpa using hlt
          | kv + 1, hkv =>
            have hkv2 : kv < rest.length := by simpa using hkv
            have : kv < i.val := by
              simp at hk
              omega
            simpa using hfirst ⟨kv, hkv2⟩ this
    · have hstep : bestMatchAux (s :: rest) j bs bi =
          bestMatchAux rest (j + 1) bs bi := by
        simp [bestMatchAux, h]
      have hsle : s ≤ bs := le_of_not_lt h
      rcases ih (j + 1) bs bi with ⟨heq, hle⟩ | ⟨i, heq, hlt, hmax, hfirst⟩
      · refine Or.inl ⟨hstep.trans heq, ?_⟩
        intro x hx
        rcases List.mem_cons.mp hx with hx | hx
        · subst hx; exact hsle
        · exact hle x hx
      · refine Or.inr ⟨⟨i.val + 1, by simp [Nat.succ_lt_succ i.isLt]⟩, ?_, ?_, ?_, ?_⟩
        · rw [hstep, heq]
          have : (j + 1) + i.val = j + (i.val + 1) := by omega
          simp [List.get_cons_succ, this]
        · simpa using hlt
        · intro x hx
          rcases List.mem_cons.mp hx with hx | hx
          · subst hx
            simpa using le_of_lt (lt_of_le_of_lt hsle hlt)
          · simpa using hmax x hx
        · intro k hk
          rcases k with ⟨kv, hkv⟩
          match kv, hkv with
          | 0, hkv => simpa using lt_of_le_of_lt hsle hlt
          | kv + 1, hkv =>
            have hkv2 : kv < rest.length := by simpa using hkv
            have : kv < i.val := by
              simp at hk
              omega
            simpa using hfirst ⟨kv, hkv2⟩ this

theorem exists_first_argmax :
    ∀ (l : List ℚ), l ≠ [] →
      ∃ i : Fin l.length, (∀ k : Fin l.length, l.get k ≤ l.get i) ∧
        (∀ k : Fin l.length, k.val < i.val → l.get k < l.get i) := by
  intro l
  induction l with
  | nil => intro h; exact absurd rfl h
  | cons a l ih =>
    intro _
    rcases l with _ | ⟨b, l2⟩
    · refine ⟨⟨0, by simp⟩, ?_, ?_⟩
      · intro k
        have hk1 : k.val < 1 := k.isLt
        have hk0 : k = ⟨0, by simp⟩ := Fin.ext (show k.val = 0 by omega)
        rw [hk0]
      · intro k hk
        exact absurd hk (Nat.not_lt_zero _)
    · obtain ⟨i, h1, h2⟩ := ih (by simp)
      by_cases ha : (b :: l2).get i ≤ a
      · refine ⟨⟨0, by simp⟩, ?_, ?_⟩
        · intro k
          rcases k with ⟨kv, hkv⟩
          match kv, hkv with
          | 0, hkv => simp
          | kv + 1, hkv =>
            have hkv2 : kv < (b :: l2).length := by simpa using hkv
            calc (a :: b :: l2).get ⟨kv + 1, hkv⟩ = (b :: l2).get ⟨kv, hkv2⟩ := rfl
              _ ≤ (b :: l2).get i := h1 ⟨kv, hkv2⟩
              _ ≤ a := ha
              _ = (a :: b :: l2).get ⟨0, by simp⟩ := rfl
        · intro k hk
          exact absurd hk (Nat.not_lt_zero _)
      · push_neg at ha
        refine ⟨⟨i.val + 1, by simp [Nat.succ_lt_succ i.isLt]⟩, ?_, ?_⟩
        · intro k
          rcases k with ⟨kv, hkv⟩
          match kv, hkv with
          | 0, hkv => exact le_of_lt ha
          | kv + 1, hkv =>
            have hkv2 : kv < (b :: l2).length := by simpa using hkv
            exact h1 ⟨kv, hkv2⟩
        · intro k hk
          rcases k with ⟨kv, hkv⟩
          match kv, hkv with
          | 0, hkv => exact ha
          | kv + 1, hkv =>
            have hkv2 : kv < (b :: l2).length := by simpa using hkv
            have hlt2 : kv < i.val := by
              simp only [] at hk
              omega
            exact h2 ⟨kv, hkv2⟩ hlt2

theorem candidateFor_some_spec {α β : Type} (sim : α → β → ℚ)
    (targets : List (String × β)) (src : String × α) (c : MappingCandidate)
    (h : candidateFor sim targets src = some c) :
    c.source_column = src.1 ∧ c.target_column ∈ targets.map Prod.fst := by
  rcases bestMatchAux_spec (targets.map (fun t => sim src.2 t.2)) 0 (-1) (-1)
    with ⟨heq, _⟩ | ⟨i, heq, _, _, _⟩
  · simp only [candidateFor, bestMatch] at h
    rw [heq] at h
    rw [if_neg (by norm_num)] at h
    exact absurd h (by simp)
  · simp only [candidateFor, bestMatch] at h
    rw [heq] at h
    dsimp only at h
    by_cases hc9 : (9 : ℚ) / 10 < (targets.map (fun t => sim src.2 t.2)).get i
    · rw [if_pos hc9] at h
      injection h with h2
      subst h2
      refine ⟨rfl, ?_⟩
      have hi : i.val < (targets.map Prod.fst).length := by
        simpa using i.isLt
      dsimp only
      rw [show (Int.ofNat (0 + i.val)).toNat = i.val from by simp]
      rw [List.getD_eq_getElem _ _ hi]
      exact List.getElem_mem hi
    · rw [if_neg hc9] at h
      exact absurd h (by simp)

/-- C2: for every source column, `run_mapper` selects the target column with
the maximum similarity to it (ties broken by the first occurrence in the
target list) and emits a `MappingCandidate` for that source column if and
only if that best score strictly exceeds the threshold `0.9`; the candidate's
confidence equals the best score, and a source column whose best score does
not exceed the threshold produces no candidate. -/
theorem claim_C2_best_match_threshold {α β : Type} (sim : α → β → ℚ)
    (sources : List (String × α)) (targets : List (String × β))
    (src : String × α) (hne : targets ≠ []) :
    runMapperCore sim sources targets = sources.filterMap (candidateFor sim targets) ∧
    ∃ j : Fin targets.length,
      (∀ k : Fin targets.length,
        sim src.2 (targets.get k).2 ≤ sim src.2 (targets.get j).2) ∧
      (∀ k : Fin targets.length, k.val < j.val →
        sim src.2 (targets.get k).2 < sim src.2 (targets.get j).2) ∧
      candidateFor sim targets src =
        (if (9 : ℚ) / 10 < sim src.2 (targets.get j).2 then
          some { source_column := src.1,
                 target_column := (targets.get j).1,
                 confidence := sim src.2 (targets.get j).2,
                 rationale := "Best semantic match with score: " ++
                   toString (sim src.2 (targets.get j).2) }
        else none) := by
  refine ⟨rfl, ?_⟩
  have hlen : (targets.map (fun t => sim src.2 t.2)).length = targets.length :=
    List.length_map _ _
  have hget : ∀ (k : Fin (targets.map (fun t => sim src.2 t.2)).length),
      (targets.map (fun t => sim src.2 t.2)).get k =
        sim src.2 (targets.get ⟨k.val, hlen ▸ k.isLt⟩).2 := by
    intro k
    simp
  rcases bestMatchAux_spec (targets.map (fun t => sim src.2 t.2)) 0 (-1) (-1)
    with ⟨heq, hle⟩ | ⟨i, heq, hgt, hmax, hfirst⟩
  · -- no similarity exceeded the initial −1: no candidate is emitted, and
    -- any first argmax (which exists since targets ≠ []) scores below 0.9
    have hne2 : targets.map (fun t => sim src.2 t.2) ≠ [] := by
      simpa using hne
    obtain ⟨i, h1, h2⟩ := exists_first_argmax _ hne2
    refine ⟨⟨i.val, hlen ▸ i.isLt⟩, ?_, ?_, ?_⟩
    · intro k
      have hk2 : k.val < (targets.map (fun t => sim src.2 t.2)).length := by
        simp [k.isLt]
      have := h1 ⟨k.val, hk2⟩
      rw [hget ⟨k.val, hk2⟩, hget i] at this
      exact this
    · intro k hk
      have hk2 : k.val < (targets.map (fun t => sim src.2 t.2)).length := by
        simp [k.isLt]
      have := h2 ⟨k.val, hk2⟩ (by simpa using hk)
      rw [hget ⟨k.val, hk2⟩, hget i] at this
      exact this
    · have hsc : sim src.2 (targets.get ⟨i.val, hlen ▸ i.isLt⟩).2 ≤ -1 := by
        have hm := hle _ (List.get_mem _ _ i.isLt)
        rw [hget i] at hm
        simpa using hm
      rw [if_neg (by linarith [hsc] : ¬ (9 : ℚ) / 10 <
        sim src.2 (targets.get ⟨i.val, hlen ▸ i.isLt⟩).2)]
      simp only [candidateFor, bestMatch]
      rw [heq]
      rw [if_neg (by norm_num)]
  · refine ⟨⟨i.val, hlen ▸ i.isLt⟩, ?_, ?_, ?_⟩
    · intro k
      have hk2 : k.val < (targets.map (fun t => sim src.2 t.2)).length := by
        simp [k.isLt]
      have := hmax _ (List.get_mem _ _ hk2)
      rw [hget ⟨k.val, hk2⟩, hget i] at this
      exact this
    · intro k hk
      have hk2 : k.val < (targets.map (fun t => sim src.2 t.2)).length := by
        simp [k.isLt]
      have := hfirst ⟨k.val, hk2⟩ (by simpa using hk)
      rw [hget ⟨k.val, hk2⟩, hget i] at this
      exact this
    · have hscore : (targets.map (fun t => sim src.2 t.2)).get i =
          sim src.2 (targets.get ⟨i.val, hlen ▸ i.isLt⟩).2 := hget i
      simp only [candidateFor, bestMatch]
      rw [heq]
      dsimp only
      rw [hscore]
      have htgt : (List.map Prod.fst targets).getD (Int.ofNat (0 + i.val)).toNat "" =
          (targets.get ⟨i.val, hlen ▸ i.isLt⟩).1 := by
        rw [show (Int.ofNat (0 + i.val)).toNat = i.val from by simp]
        have hi : i.val < (targets.map Prod.fst).length := by
          simpa using hlen ▸ i.isLt
        rw [List.getD_eq_getElem _ _ hi]
        simp
      rw [htgt]

/-- Witness scenario for C2: similarity scores 0.95 / 0.85 / 0.5 against
threshold 0.9 — exactly one candidate (score 0.95) is emitted. -/
def mapperWitSources : List (String × Nat) := [("s.a", 0)]

def mapperWitTargets : List (String × Nat) := [("t.x", 0), ("t.y", 1), ("t.z", 2)]

def mapperWitSim : Nat → Nat → ℚ :=
  fun _ t => if t = 0 then 19 / 20 else if t = 1 then 17 / 20 else 1 / 2

theorem claim_C2_witness :
    runMapperCore mapperWitSim mapperWitSources mapperWitTargets =
      mapperWitSources.filterMap (candidateFor mapperWitSim mapperWitTargets) ∧
    (runMapperCore mapperWitSim mapperWitSources mapperWitTargets).map
        (fun c => (c.source_column, c.target_column, c.confidence)) =
      [("s.a", "t.x", (19 : ℚ) / 20)] := by
  have h := claim_C2_best_match_threshold mapperWitSim mapperWitSources
    mapperWitTargets ("s.a", 0) (by decide)
  refine ⟨h.1, ?_⟩
  norm_num [runMapperCore, candidateFor, bestMatch, bestMatchAux,
    mapperWitSim, mapperWitSources, mapperWitTargets, List.filterMap]

/-! ### Mapping-output guardrail
(`src/data_integration_agent/guardrails.py::validate_mapping_output`)

A proposed mapping dict; a missing or `None`/empty (falsy) column value is
modelled as the empty string, matching the Python truthiness check
`if source_col and source_col not in source_columns`. -/

structure RawMapping where
  source_column : String
  target_column : String
deriving Repr, DecidableEq

/-- An entry of the `hallucinated` list built by `validate_mapping_output`. -/
structure HallucEntry where
  typ : String
  column : String
  issue : String
deriving Repr, DecidableEq

/-- The per-mapping checks of the `for mapping in mappings` loop. -/
def checkMapping (source_columns target_columns : List String)
    (m : RawMapping) : List HallucEntry :=
  (if m.source_column ≠ "" ∧ m.source_column ∉ source_columns then
    [⟨"source", m.source_column, "Column does not exist in source schema"⟩]
  else []) ++
  (if m.target_column ≠ "" ∧ m.target_column ∉ target_columns then
    [⟨"target", m.target_column, "Column does not exist in target schema"⟩]
  else [])

/-- `validate_mapping_output(mappings, source_columns, target_columns)`:
returns `(is_valid, error_message, hallucinated)`. -/
def validate_mapping_output (mappings : List RawMapping)
    (source_columns target_columns : List String) :
    Bool × String × List HallucEntry :=
  let hallucinated := (mappings.map (checkMapping source_columns target_columns)).flatten
  if hallucinated.isEmpty then (true, "", [])
  else (false, "Detected " ++ toString hallucinated.length ++ " non-existent columns",
    hallucinated)

theorem checkMapping_eq_nil_iff {sc tc : List String} {m : RawMapping} :
    checkMapping sc tc m = [] ↔
      ¬ ((m.source_column ≠ "" ∧ m.source_column ∉ sc) ∨
         (m.target_column ≠ "" ∧ m.target_column ∉ tc)) := by
  unfold checkMapping
  by_cases h1 : m.source_column ≠ "" ∧ m.source_column ∉ sc
  · by_cases h2 : m.target_column ≠ "" ∧ m.target_column ∉ tc
    · simp [h1, h2]
    · simp [h1, h2]
  · by_cases h2 : m.target_column ≠ "" ∧ m.target_column ∉ tc
    · simp [h1, h2]
    · simp [h1, h2]

theorem validate_mapping_output_false_iff (mappings : List RawMapping)
    (sc tc : List String) :
    (validate_mapping_output mappings sc tc).1 = false ↔
      ∃ m ∈ mappings, (m.source_column ≠ "" ∧ m.source_column ∉ sc) ∨
        (m.target_column ≠ "" ∧ m.target_column ∉ tc) := by
  unfold validate_mapping_output
  by_cases h : ((mappings.map (checkMapping sc tc)).flatten).isEmpty
  · rw [if_pos h]
    simp only [List.isEmpty_iff] at h
    constructor
    · intro hfalse
      exact absurd hfalse (by simp)
    · rintro ⟨m, hm, hcase⟩
      have : checkMapping sc tc m = [] := by
        rcases List.eq_nil_iff_forall_not_mem.mp h with _
        have hsub : ∀ x ∈ checkMapping sc tc m, x ∈
            (mappings.map (checkMapping sc tc)).flatten := by
          intro x hx
          rw [List.mem_flatten]
          exact ⟨checkMapping sc tc m, List.mem_map_of_mem _ hm, hx⟩
        rcases he : checkMapping sc tc m with _ | ⟨a, l⟩
        · rfl
        · have := hsub a (by rw [he]; exact List.mem_cons_self _ _)
          rw [h] at this
          simp at this
      exact absurd hcase (checkMapping_eq_nil_iff.mp this)
  · rw [if_neg h]
    simp only [List.isEmpty_iff] at h
    constructor
    · intro _
      obtain ⟨a, ha⟩ := List.exists_mem_of_ne_nil _ h
      rw [List.mem_flatten] at ha
      obtain ⟨l, hl, hal⟩ := ha
      obtain ⟨m, hm, hml⟩ := List.mem_map.mp hl
      refine ⟨m, hm, ?_⟩
      by_contra hno
      have : checkMapping sc tc m = [] := checkMapping_eq_nil_iff.mpr hno
      rw [← hml, this] at hal
      simp at hal
    · intro _
      rfl

theorem columnDocs_fst (tables : List TableSchema) :
    (columnDocs tables).map Prod.fst = declaredColumns tables := by
  induction tables with
  | nil => rfl
  | cons t ts ih =>
    simp only [columnDocs, declaredColumns, List.map_cons, List.flatten_cons,
      List.map_append, List.map_map] at ih ⊢
    rw [ih]
    rfl

/-- C3: every candidate produced by the mapping engine references only
declared source/target columns, and `validate_mapping_output` reports invalid
exactly when some mapping references a (non-empty) name outside the declared
column sets. -/
theorem claim_C3_no_hallucination {α : Type} (embed : String → α)
    (sim : α → α → ℚ) (sourceTables targetTables : List TableSchema)
    (mappings : List RawMapping) (sc tc : List String) :
    (∀ c ∈ run_mapper embed sim sourceTables targetTables,
        c.source_column ∈ declaredColumns sourceTables ∧
        c.target_column ∈ declaredColumns targetTables) ∧
    ((validate_mapping_output mappings sc tc).1 = false ↔
      ∃ m ∈ mappings, (m.source_column ≠ "" ∧ m.source_column ∉ sc) ∨
        (m.target_column ≠ "" ∧ m.target_column ∉ tc)) := by
  refine ⟨?_, validate_mapping_output_false_iff mappings sc tc⟩
  intro c hc
  unfold run_mapper at hc
  split at hc
  · simp at hc
  · obtain ⟨src, hsrc, hcf⟩ := List.mem_filterMap.mp hc
    obtain ⟨h1, h2⟩ := candidateFor_some_spec _ _ _ _ hcf
    constructor
    · rw [h1]
      have hmem : src.1 ∈
          ((columnDocs sourceTables).map (fun p => (p.1, embed p.2))).map Prod.fst :=
        List.mem_map_of_mem _ hsrc
      rw [List.map_map] at hmem
      have hcomp : (Prod.fst ∘ fun p : String × String => (p.1, embed p.2)) = Prod.fst := by
        funext p
        rfl
      rw [hcomp, columnDocs_fst] at hmem
      exact hmem
    · rw [List.map_map] at h2
      have hcomp : (Prod.fst ∘ fun p : String × String => (p.1, embed p.2)) = Prod.fst := by
        funext p
        rfl
      rw [hcomp, columnDocs_fst] at h2
      exact h2

theorem claim_C3_witness :
    (("s.a" : String) ∈ declaredColumns [⟨"s", ["a"]⟩] ∧
      ("t.x" : String) ∈ declaredColumns [⟨"t", ["x"]⟩]) ∧
    (validate_mapping_output [⟨"bogus.q", "t.x"⟩] ["s.a"] ["t.x"]).1 = false := by
  have h := claim_C3_no_hallucination (fun _ => ()) (fun _ _ => (1 : ℚ))
    [⟨"s", ["a"]⟩] [⟨"t", ["x"]⟩] [⟨"bogus.q", "t.x"⟩] ["s.a"] ["t.x"]
  constructor
  · have hrm : run_mapper (fun _ => ()) (fun _ _ => (1 : ℚ))
        [⟨"s", ["a"]⟩] [⟨"t", ["x"]⟩] =
        [{ source_column := "s.a", target_column := "t.x", confidence := 1,
           rationale := "Best semantic match with score: " ++ toString (1 : ℚ) }] := by
      norm_num [run_mapper, runMapperCore, candidateFor, bestMatch, bestMatchAux,
        columnDocs, tableContext, List.filterMap]
      exact ⟨rfl, rfl⟩
    have hres := h.1 _ (by rw [hrm]; exact List.mem_cons_self _ _)
    exact hres
  · exact h.2.mpr ⟨⟨"bogus.q", "t.x"⟩, by simp, Or.inl (by simp)⟩

/-- C5 as stated is false: two source columns may map to the same target
column, giving two candidates with the same target (here both sources map to
`t.x` with similarity 1 > 0.9). -/
theorem claim_C5_counterexample :
    ¬ List.Pairwise (fun c d : MappingCandidate => c.target_column ≠ d.target_column)
      (run_mapper (fun _ => ()) (fun _ _ => (1 : ℚ))
        [⟨"s", ["a", "b"]⟩] [⟨"t", ["x"]⟩]) := by
  have hrm : run_mapper (fun _ => ()) (fun _ _ => (1 : ℚ))
      [⟨"s", ["a", "b"]⟩] [⟨"t", ["x"]⟩] =
      [{ source_column := "s.a", target_column := "t.x", confidence := 1,
         rationale := "Best semantic match with score: " ++ toString (1 : ℚ) },
       { source_column := "s.b", target_column := "t.x", confidence := 1,
         rationale := "Best semantic match with score: " ++ toString (1 : ℚ) }] := by
    norm_num [run_mapper, runMapperCore, candidateFor, bestMatch, bestMatchAux,
      columnDocs, tableContext, List.filterMap]
    exact ⟨⟨rfl, rfl⟩, rfl, rfl⟩
  rw [hrm]
  intro hpw
  have := (List.pairwise_cons.mp hpw).1 _ (List.mem_cons_self _ _)
  exact this rfl

theorem mem_filterMap_source {α β : Type} (sim : α → β → ℚ)
    (targets : List (String × β)) (rest : List (String × α)) {x : String}
    (hx : x ∈ (rest.filterMap (candidateFor sim targets)).map
      MappingCandidate.source_column) : x ∈ rest.map Prod.fst := by
  obtain ⟨c, hc, hcx⟩ := List.mem_map.mp hx
  obtain ⟨src, hsrc, hcf⟩ := List.mem_filterMap.mp hc
  have := (candidateFor_some_spec _ _ _ _ hcf).1
  rw [← hcx, this]
  exact List.mem_map_of_mem _ hsrc

theorem runMapperCore_sources_nodup {α β : Type} (sim : α → β → ℚ)
    (targets : List (String × β)) :
    ∀ (sources : List (String × α)), (sources.map Prod.fst).Nodup →
      ((runMapperCore sim sources targets).map MappingCandidate.source_column).Nodup := by
  intro sources
  induction sources with
  | nil => intro _; simp [runMapperCore]
  | cons s rest ih =>
    intro h
    simp only [List.map_cons, List.nodup_cons] at h
    unfold runMapperCore at ih ⊢
    rw [List.filterMap_cons]
    cases hcf : candidateFor sim targets s with
    | none => exact ih h.2
    | some c =>
      simp only [List.map_cons, List.nodup_cons]
      refine ⟨?_, ih h.2⟩
      intro hmem
      have hx := mem_filterMap_source sim targets rest hmem
      have := (candidateFor_some_spec _ _ _ _ hcf).1
      rw [this] at hx
      exact h.1 hx

/-- C5 amended: there is at most one candidate per *source* column (the
engine iterates source columns, emitting at most one candidate each, and does
not deduplicate target columns): if the declared source column names are
distinct, no source column appears in two distinct candidates. -/
theorem claim_C5_amended {α : Type} (embed : String → α) (sim : α → α → ℚ)
    (sourceTables targetTables : List TableSchema)
    (h : (declaredColumns sourceTables).Nodup) :
    ((run_mapper embed sim sourceTables targetTables).map
      MappingCandidate.source_column).Nodup := by
  unfold run_mapper
  split
  · simp
  · apply runMapperCore_sources_nodup
    rw [List.map_map]
    have hcomp : (Prod.fst ∘ fun p : String × String => (p.1, embed p.2)) = Prod.fst := by
      funext p
      rfl
    rw [hcomp, columnDocs_fst]
    exact h

theorem claim_C5_amended_witness :
    ((run_mapper (fun _ => ()) (fun _ _ => (1 : ℚ))
      [⟨"s", ["a", "b"]⟩] [⟨"t", ["x"]⟩]).map
        MappingCandidate.source_column).Nodup :=
  claim_C5_amended (fun _ => ()) (fun _ _ => (1 : ℚ))
    [⟨"s", ["a", "b"]⟩] [⟨"t", ["x"]⟩] (by decide)

/-! ### Validator agent (`src/validator_agent/main.py::run_validator`)

The BigQuery DQ tool is an external collaborator: each target table's check
either yields metrics or raises; this is the `check` parameter. -/

/-- The metrics dict returned by `dq_tool.run_checks`. -/
structure DQMetrics where
  row_count : Nat
  null_counts : List (String × Int)
  uniqueness_violations : List (String × Int)
deriving Repr, DecidableEq

/-- Outcome of validating one table: metrics, or an exception message. -/
inductive DQOutcome
  | ok (m : DQMetrics)
  | err (msg : String)
deriving Repr, DecidableEq

/-- The fixed list of target tables validated by `run_validator`. -/
def validatorTables : List String :=
  ["dim_borrower", "dim_collateral", "dim_date", "dim_facility",
   "dim_guarantor", "dim_loan", "dim_rate_index", "dim_risk_rating",
   "dim_syndicate_member", "fact_loan_snapshot", "fact_payments"]

/-- `table_violations`: the sum of the positive per-column duplicate counts
(`if count > 0: table_violations += count`). -/
def tableViolations (m : DQMetrics) : Int :=
  (m.uniqueness_violations.map (fun p => if 0 < p.2 then p.2 else 0)).sum

/-- One iteration of the `for table_name in target_tables` loop, threading
`(tables_passed, tables_failed, total_violations, overall_status == "success")`. -/
def validatorStep (check : String → DQOutcome)
    (acc : Nat × Nat × Int × Bool) (t : String) : Nat × Nat × Int × Bool :=
  match check t with
  | .err _ => (acc.1, acc.2.1 + 1, acc.2.2.1, false)
  | .ok m =>
    if 0 < tableViolations m then
      (acc.1, acc.2.1 + 1, acc.2.2.1 + tableViolations m, false)
    else
      (acc.1 + 1, acc.2.1, acc.2.2.1, acc.2.2.2)

/-- The result record assembled by `run_validator`. -/
structure ValidationResult where
  status : String
  confidence : ℚ
  tables_passed : Nat
  tables_failed : Nat
  total_violations : Int
deriving Repr, DecidableEq

/-- The `(tables_passed, tables_failed, total_violations, success?)` state
after the whole validation loop. -/
def validatorAcc (check : String → DQOutcome) : Nat × Nat × Int × Bool :=
  validatorTables.foldl (validatorStep check) (0, 0, 0, true)

/-- `run_validator(run_id)`: run the DQ checks over all target tables and
compute `confidence = 1.0 if overall_status == "success" else
max(0.3, 1.0 - total_violations * 0.1)`. -/
def run_validator (check : String → DQOutcome) : ValidationResult :=
  { status := if (validatorAcc check).2.2.2 then "success" else "failure",
    confidence := if (validatorAcc check).2.2.2 then 1
      else max (3 / 10) (1 - ((validatorAcc check).2.2.1 : ℚ) * (1 / 10)),
    tables_passed := (validatorAcc check).1,
    tables_failed := (validatorAcc check).2.1,
    total_violations := (validatorAcc check).2.2.1 }

theorem tableViolations_nonneg (m : DQMetrics) : 0 ≤ tableViolations m := by
  unfold tableViolations
  induction m.uniqueness_violations with
  | nil => simp
  | cons p rest ih =>
    simp only [List.map_cons, List.sum_cons]
    by_cases h : 0 < p.2
    · simp only [if_pos h]
      omega
    · simp only [if_neg h]
      omega

theorem validatorFold_invariant (check : String → DQOutcome) :
    ∀ (ts : List String) (p f : Nat) (tv : Int) (st : Bool),
      0 ≤ tv → (st = true → tv = 0) →
      0 ≤ (ts.foldl (validatorStep check) (p, f, tv, st)).2.2.1 ∧
        ((ts.foldl (validatorStep check) (p, f, tv, st)).2.2.2 = true →
          (ts.foldl (validatorStep check) (p, f, tv, st)).2.2.1 = 0) := by
  intro ts
  induction ts with
  | nil => intro p f tv st h1 h2; exact ⟨h1, h2⟩
  | cons t rest ih =>
    intro p f tv st h1 h2
    rw [List.foldl_cons]
    cases hck : check t with
    | err m =>
      have hstep : validatorStep check (p, f, tv, st) t = (p, f + 1, tv, false) := by
        simp [validatorStep, hck]
      rw [hstep]
      exact ih p (f + 1) tv false h1 (by simp)
    | ok m =>
      by_cases h : 0 < tableViolations m
      · have hstep : validatorStep check (p, f, tv, st) t =
            (p, f + 1, tv + tableViolations m, false) := by
          simp [validatorStep, hck, h]
        rw [hstep]
        exact ih p (f + 1) (tv + tableViolations m) false (by omega) (by simp)
      · have hstep : validatorStep check (p, f, tv, st) t = (p + 1, f, tv, st) := by
          simp [validatorStep, hck, h]
        rw [hstep]
        exact ih (p + 1) f tv st h1 h2

/-- C4: the validation confidence is exactly 1 iff the total number of
uniqueness violations is 0; otherwise it equals
`max(0.3, 1 − 0.1 · totalViolations)`, which is strictly decreasing in the
total until it reaches the floor 0.3. -/
theorem claim_C4_confidence (check : String → DQOutcome) :
    ((run_validator check).confidence = 1 ↔
      (run_validator check).total_violations = 0) ∧
    ((run_validator check).total_violations ≠ 0 →
      (run_validator check).confidence =
        max (3 / 10) (1 - ((run_validator check).total_violations : ℚ) * (1 / 10))) ∧
    (∀ v w : ℤ, 0 < v → v < w →
      ((3 : ℚ) / 10 < 1 - (v : ℚ) * (1 / 10) →
        max ((3 : ℚ) / 10) (1 - (w : ℚ) * (1 / 10)) <
          max ((3 : ℚ) / 10) (1 - (v : ℚ) * (1 / 10))) ∧
      (3 : ℚ) / 10 ≤ max ((3 : ℚ) / 10) (1 - (v : ℚ) * (1 / 10))) := by
  have hinv := validatorFold_invariant check validatorTables 0 0 0 true
    (le_refl 0) (fun _ => rfl)
  have hnn : 0 ≤ (validatorAcc check).2.2.1 := hinv.1
  have hz : (validatorAcc check).2.2.2 = true → (validatorAcc check).2.2.1 = 0 := hinv.2
  refine ⟨?_, ?_, ?_⟩
  · simp only [run_validator]
    by_cases hst : (validatorAcc check).2.2.2 = true
    · simp only [hst, if_true]
      constructor
      · intro _
        exact hz hst
      · intro _
        trivial
    · simp only [hst, if_false, Bool.false_eq_true]
      constructor
      · intro hconf
        by_contra hne
        have hpos : 0 < (validatorAcc check).2.2.1 := lt_of_le_of_ne hnn (Ne.symm hne)
        have h1 : (1 : ℚ) ≤ ((validatorAcc check).2.2.1 : ℚ) := by
          exact_mod_cast hpos
        have hlt : max ((3 : ℚ) / 10)
            (1 - ((validatorAcc check).2.2.1 : ℚ) * (1 / 10)) < 1 := by
          apply max_lt
          · norm_num
          · linarith
        rw [hconf] at hlt
        exact absurd hlt (lt_irrefl 1)
      · intro hzero
        rw [hzero]
        norm_num
  · simp only [run_validator]
    intro hne
    by_cases hst : (validatorAcc check).2.2.2 = true
    · exact absurd (hz hst) hne
    · simp [hst]
  · intro v w hv hw
    constructor
    · intro hfloor
      have h1 : (1 : ℚ) - (w : ℚ) * (1 / 10) < 1 - (v : ℚ) * (1 / 10) := by
        have : (v : ℚ) < (w : ℚ) := by exact_mod_cast hw
        linarith
      rw [max_eq_right (le_of_lt hfloor)]
      rcases le_or_lt (1 - (w : ℚ) * (1 / 10)) ((3 : ℚ) / 10) with hc | hc
      · rw [max_eq_left hc]
        exact hfloor
      · rw [max_eq_right (le_of_lt hc)]
        exact h1
    · exact le_max_left _ _

/-- Witness check outcomes: `dim_loan` has 3 duplicate keys, all other
tables are clean. -/
def validatorWitCheck : String → DQOutcome := fun t =>
  if t = "dim_loan" then .ok ⟨10, [], [("loan_id", 3)]⟩ else .ok ⟨5, [], []⟩

theorem claim_C4_witness :
    (run_validator validatorWitCheck).total_violations = 3 ∧
    (run_validator validatorWitCheck).confidence =
      max ((3 : ℚ) / 10)
        (1 - ((run_validator validatorWitCheck).total_violations : ℚ) * (1 / 10)) ∧
    (max ((3 : ℚ) / 10) (1 - (2 : ℚ) * (1 / 10)) <
      max ((3 : ℚ) / 10) (1 - (1 : ℚ) * (1 / 10))) := by
  have h := claim_C4_confidence validatorWitCheck
  refine ⟨by decide, h.2.1 (by decide), ?_⟩
  exact (h.2.2 1 2 (by norm_num) (by norm_num)).1 (by norm_num)

/-! ### Transform agent (`src/transform_agent/main.py::run_transform`)

The external-table map, project id and dataset are configuration supplied to
`run_transform` (modelled as parameters; the Python code returns `[]` when the
configuration is missing, a case outside these claims). -/

/-- An approved mapping dict (`source_column`/`target_column` hold
`table.column` strings). -/
structure ApprovedMapping where
  source_column : String
  target_column : String
deriving Repr, DecidableEq

/-- `s.split('.')` on the character list (the Python dot-split). -/
def splitDotAux : List Char → List Char → List (List Char)
  | [], acc => [acc.reverse]
  | c :: cs, acc =>
    if c = '.' then acc.reverse :: splitDotAux cs [] else splitDotAux cs (c :: acc)

def splitDot (s : String) : List String :=
  (splitDotAux s.toList []).map String.mk

/-- `s.split('.')[0]` -/
def tablePart (s : String) : String := (splitDot s).getD 0 ""

/-- `s.split('.')[1]` -/
def columnPart (s : String) : String := (splitDot s).getD 1 ""

/-- Insertion into the target-table grouping dict (insertion order kept). -/
def insertGroup : List (String × List ApprovedMapping) → String → ApprovedMapping →
    List (String × List ApprovedMapping)
  | [], key, m => [(key, [m])]
  | (k, l) :: rest, key, m =>
    if k = key then (k, l ++ [m]) :: rest else (k, l) :: insertGroup rest key m

/-- `target_tables`: approved mappings grouped by target table name. -/
def groupByTargetTable (ms : List ApprovedMapping) :
    List (String × List ApprovedMapping) :=
  ms.foldl (fun acc m => insertGroup acc (tablePart m.target_column) m) []

/-- `list(set(...))`, modelled as first-occurrence deduplication. -/
def dedupFirstAux : List String → List String → List String
  | [], _ => []
  | a :: l, seen =>
    if a ∈ seen then dedupFirstAux l seen else a :: dedupFirstAux l (a :: seen)

def dedupKeepFirst (l : List String) : List String := dedupFirstAux l []

/-- The inner `for start_table in joined_tables` search for the shortest BFS
path to `endTable` (strictly shorter paths replace the running best). -/
def bestPathFrom (adj : AdjList) (joined : List String) (endTable : String) :
    Option (List String) :=
  joined.foldl (fun acc s =>
    match find_join_path_bfs s endTable adj with
    | none => acc
    | some path =>
      match acc with
      | none => some path
      | some best => if path.length < best.length then some path else acc) none

/-- `for edge in adj_list.get(t1, []): if edge["target"] == t2: … break` -/
def firstEdgeTo (adj : AdjList) (t1 t2 : String) : Option FKEdge :=
  (adjGet adj t1).find? (fun e => e.target == t2)

/-- The JOIN clause appended for one consecutive path pair. -/
def joinClauseFor (extMap : String → String) (adj : AdjList) (t1 t2 : String) : String :=
  match firstEdgeTo adj t1 t2 with
  | some e =>
    " JOIN " ++ extMap t2 ++ " ON " ++ extMap t1 ++ "." ++ e.column ++ " = " ++
      extMap t2 ++ "." ++ e.references_column
  | none => ""

/-- The `for i in range(len(shortest_path) - 1)` clause accumulation. -/
def clausesAlongPath (extMap : String → String) (adj : AdjList) : List String → String
  | t1 :: t2 :: rest =>
    joinClauseFor extMap adj t1 t2 ++ clausesAlongPath extMap adj (t2 :: rest)
  | _ => ""

/-- State of the `while tables_to_join` loop. -/
structure JoinState where
  toJoin : List String
  joined : List String
  clauses : String
  found : Bool

/-- One pass of the `for end_table in list(tables_to_join)` loop over the
snapshot of the to-join set. -/
def passOne (adj : AdjList) (extMap : String → String) :
    List String → JoinState → JoinState
  | [], st => st
  | e :: rest, st =>
    match bestPathFrom adj st.joined e with
    | some path =>
      passOne adj extMap rest
        { toJoin := st.toJoin.filter (fun x => decide (x ≠ e)),
          joined := st.joined ++ path.filter (fun x => decide (x ∉ st.joined)),
          clauses := st.clauses ++ clausesAlongPath extMap adj path,
          found := true }
    | none => passOne adj extMap rest st

/-- The `while tables_to_join:` loop: returns the accumulated join clauses
and whether it degraded to the cross-join fallback (`path_found == False`). -/
def joinLoop (adj : AdjList) (extMap : String → String) :
    Nat → JoinState → String × Bool
  | 0, st => (st.clauses, false)
  | fuel + 1, st =>
    if st.toJoin.isEmpty then (st.clauses, false)
    else
      if (passOne adj extMap st.toJoin { st with found := false }).found then
        joinLoop adj extMap fuel (passOne adj extMap st.toJoin { st with found := false })
      else ("", true)

/-- The SQL text assembled for one target table. -/
def sqlText (project dataset target : String) (mappings : List ApprovedMapping)
    (extMap : String → String) (fromClause joinClauses : String) : String :=
  "\n-- SQL for " ++ target ++ "\nINSERT INTO `" ++ project ++ "." ++ dataset ++
    "." ++ target ++ "` (" ++
    String.intercalate ", " (mappings.map (fun m => columnPart m.target_column)) ++
    ")\nSELECT " ++
    String.intercalate ", " (mappings.map (fun m =>
      extMap (tablePart m.source_column) ++ "." ++ columnPart m.source_column ++
        " AS " ++ columnPart m.target_column)) ++
    "\nFROM " ++ fromClause ++ joinClauses ++ ";\n"

/-- SQL generation for one target table: base table, join-path resolution,
and the unconstrained cross-join fallback when no join path is found. -/
def generateSQLFor (adj : AdjList) (extMap : String → String)
    (project dataset target : String) (mappings : List ApprovedMapping) : String :=
  match dedupKeepFirst (mappings.map (fun m => tablePart m.source_column)) with
  | [] => sqlText project dataset target mappings extMap "" ""
  | base :: others =>
    if others.isEmpty then
      sqlText project dataset target mappings extMap (extMap base) ""
    else
      match joinLoop adj extMap (others.length + 1)
          { toJoin := others, joined := [base], clauses := "", found := false } with
      | (_, true) =>
        sqlText project dataset target mappings extMap
          (String.intercalate ", " ((base :: others).map extMap)) ""
      | (clauses, false) =>
        sqlText project dataset target mappings extMap (extMap base) clauses

/-- `run_transform`: one SQL statement per target table group, in group
order. -/
def run_transform (adj : AdjList) (extMap : String → String)
    (project dataset : String) (approved : List ApprovedMapping) : List String :=
  (groupByTargetTable approved).map
    (fun g => generateSQLFor adj extMap project dataset g.1 g.2)

/-- Reachability between tables along the adjacency edges. -/
def ReachableTable (adj : AdjList) (a b : String) : Prop :=
  ∃ w, WalkTo adj a b w

theorem walkTo_trans {adj : AdjList} {a b c : String} {p q : List String}
    (h1 : WalkTo adj a b p) (h2 : WalkTo adj b c q) : ∃ r, WalkTo adj a c r := by
  induction h2 with
  | base => exact ⟨p, h1⟩
  | snoc h2 hn ih =>
    obtain ⟨r, hr⟩ := ih
    exact ⟨r ++ [_], hr.snoc hn⟩

theorem walk_mem_reach {adj : AdjList} {s e : String} {p : List String}
    (h : WalkTo adj s e p) : ∀ x ∈ p, ReachableTable adj s x := by
  induction h with
  | base =>
    intro x hx
    simp only [List.mem_singleton] at hx
    subst hx
    exact ⟨[x], WalkTo.base⟩
  | snoc h2 hn ih =>
    intro x hx
    rcases List.mem_append.mp hx with hx | hx
    · exact ih x hx
    · simp only [List.mem_singleton] at hx
      subst hx
      exact ⟨_, h2.snoc hn⟩

theorem bfs_some_walk {adj : AdjList} {s e : String} {p : List String}
    (h : find_join_path_bfs s e adj = some p) : WalkTo adj s e p := by
  obtain ⟨h1, h2, _, h4, _⟩ := (find_join_path_bfs_spec adj s e).1 p h
  apply isTablePath_walkTo
  refine ⟨?_, h1, h2, h4⟩
  intro hc
  rw [hc] at h1
  simp at h1

theorem bestPathFrom_some {adj : AdjList} {endTable : String} {path : List String} :
    ∀ (l : List String) (acc : Option (List String)),
      l.foldl (fun acc s =>
        match find_join_path_bfs s endTable adj with
        | none => acc
        | some path =>
          match acc with
          | none => some path
          | some best => if path.length < best.length then some path else acc) acc
        = some path →
      acc = some path ∨ ∃ s ∈ l, find_join_path_bfs s endTable adj = some path := by
  intro l
  induction l with
  | nil => intro acc h; exact Or.inl h
  | cons s rest ih =>
    intro acc h
    rw [List.foldl_cons] at h
    rcases ih _ h with hacc | ⟨s2, hs2, hbfs⟩
    · cases hbfs2 : find_join_path_bfs s endTable adj with
      | none =>
        rw [hbfs2] at hacc
        exact Or.inl hacc
      | some p2 =>
        rw [hbfs2] at hacc
        cases acc with
        | none =>
          dsimp only at hacc
          simp only [Option.some.injEq] at hacc
          exact Or.inr ⟨s, List.mem_cons_self _ _, hacc ▸ hbfs2⟩
        | some best =>
          dsimp only at hacc
          by_cases hlen : p2.length < best.length
          · rw [if_pos hlen] at hacc
            simp only [Option.some.injEq] at hacc
            exact Or.inr ⟨s, List.mem_cons_self _ _, hacc ▸ hbfs2⟩
          · rw [if_neg hlen] at hacc
            exact Or.inl hacc
    · exact Or.inr ⟨s2, List.mem_cons_of_mem _ hs2, hbfs⟩

theorem filter_ne_length_lt {e : String} :
    ∀ {l : List String}, e ∈ l →
      (l.filter (fun x => decide (x ≠ e))).length < l.length := by
  intro l
  induction l with
  | nil => intro h; simp at h
  | cons a rest ih =>
    intro h
    rw [List.filter_cons]
    by_cases hae : a = e
    · have : (decide (a ≠ e)) = false := by simp [hae]
      rw [this]
      simp only [Bool.false_eq_true, if_false, List.length_cons]
      have := List.length_filter_le (fun x => decide (x ≠ e)) rest
      omega
    · have hd : (decide (a ≠ e)) = true := by simp [hae]
      rw [hd]
      simp only [if_true, List.length_cons]
      have he : e ∈ rest := by
        rcases List.mem_cons.mp h with h | h
        · exact absurd h.symm hae
        · exact h
      have := ih he
      omega

theorem dedupFirstAux_nodup :
    ∀ (l seen : List String),
      (dedupFirstAux l seen).Nodup ∧ ∀ x ∈ dedupFirstAux l seen, x ∉ seen := by
  intro l
  induction l with
  | nil => intro seen; simp [dedupFirstAux]
  | cons a rest ih =>
    intro seen
    by_cases h : a ∈ seen
    · simp only [dedupFirstAux, h, if_true]
      exact ih seen
    · simp only [dedupFirstAux, h, if_false]
      obtain ⟨hnd, hnotin⟩ := ih (a :: seen)
      refine ⟨List.nodup_cons.mpr ⟨?_, hnd⟩, ?_⟩
      · intro hc
        exact hnotin a hc (List.mem_cons_self _ _)
      · intro x hx
        rcases List.mem_cons.mp hx with hx | hx
        · subst hx
          exact h
        · intro hc
          exact hnotin x hx (List.mem_cons_of_mem _ hc)

theorem dedupKeepFirst_nodup (l : List String) : (dedupKeepFirst l).Nodup :=
  (dedupFirstAux_nodup l []).1

theorem passOne_spec (adj : AdjList) (extMap : String → String) {base t : String}
    (hreach_t : ¬ ReachableTable adj base t) :
    ∀ (snapshot : List String) (st : JoinState),
      snapshot.Nodup → (∀ x ∈ snapshot, x ∈ st.toJoin) →
      (∀ j ∈ st.joined, ReachableTable adj base j) →
      t ∈ st.toJoin → st.toJoin.Nodup →
      (∀ j ∈ (passOne adj extMap snapshot st).joined, ReachableTable adj base j) ∧
      t ∈ (passOne adj extMap snapshot st).toJoin ∧
      (passOne adj extMap snapshot st).toJoin.Sublist st.toJoin ∧
      (passOne adj extMap snapshot st).toJoin.Nodup ∧
      ((passOne adj extMap snapshot st).found = true →
        st.found = true ∨
          (passOne adj extMap snapshot st).toJoin.length < st.toJoin.length) := by
  intro snapshot
  induction snapshot with
  | nil =>
    intro st _ _ hj ht hnd
    exact ⟨hj, ht, List.Sublist.refl _, hnd, fun h => Or.inl h⟩
  | cons e rest ih =>
    intro st hsnd hsub hj ht hnd
    have hsnd2 := List.nodup_cons.mp hsnd
    cases hbp : bestPathFrom adj st.joined e with
    | none =>
      have hpass : passOne adj extMap (e :: rest) st = passOne adj extMap rest st := by
        simp [passOne, hbp]
      rw [hpass]
      exact ih st hsnd2.2 (fun x hx => hsub x (List.mem_cons_of_mem _ hx)) hj ht hnd
    | some path =>
      obtain ⟨s, hs, hbfs⟩ := bestPathFrom_some st.joined none (by
        have := hbp
        unfold bestPathFrom at this
        exact this) |>.resolve_left (by simp)
      have hwalk : WalkTo adj s e path := bfs_some_walk hbfs
      have hreach_s : ReachableTable adj base s := hj s hs
      have hte : t ≠ e := by
        intro hc
        subst hc
        obtain ⟨ws, hws⟩ := hreach_s
        obtain ⟨r, hr⟩ := walkTo_trans hws hwalk
        exact hreach_t ⟨r, hr⟩
      have hpass : passOne adj extMap (e :: rest) st = passOne adj extMap rest
          { toJoin := st.toJoin.filter (fun x => decide (x ≠ e)),
            joined := st.joined ++ path.filter (fun x => decide (x ∉ st.joined)),
            clauses := st.clauses ++ clausesAlongPath extMap adj path,
            found := true } := by
        simp [passOne, hbp]
      rw [hpass]
      have hj2 : ∀ j ∈ st.joined ++ path.filter (fun x => decide (x ∉ st.joined)),
          ReachableTable adj base j := by
        intro j hjm
        rcases List.mem_append.mp hjm with hjm | hjm
        · exact hj j hjm
        · have hjp : j ∈ path := List.mem_of_mem_filter hjm
          obtain ⟨wsj, hwsj⟩ := walk_mem_reach hwalk j hjp
          obtain ⟨wbs, hwbs⟩ := hreach_s
          obtain ⟨r, hr⟩ := walkTo_trans hwbs hwsj
          exact ⟨r, hr⟩
      have ht2 : t ∈ st.toJoin.filter (fun x => decide (x ≠ e)) := by
        rw [List.mem_filter]
        exact ⟨ht, by simpa using hte⟩
      have hsub2 : ∀ x ∈ rest, x ∈ st.toJoin.filter (fun x => decide (x ≠ e)) := by
        intro x hx
        rw [List.mem_filter]
        refine ⟨hsub x (List.mem_cons_of_mem _ hx), ?_⟩
        simp only [decide_eq_true_eq]
        intro hc
        subst hc
        exact hsnd2.1 hx
      have hnd2 : (st.toJoin.filter (fun x => decide (x ≠ e))).Nodup :=
        hnd.filter _
      have hres := ih
        { toJoin := st.toJoin.filter (fun x => decide (x ≠ e)),
          joined := st.joined ++ path.filter (fun x => decide (x ∉ st.joined)),
          clauses := st.clauses ++ clausesAlongPath extMap adj path,
          found := true } hsnd2.2 hsub2 hj2 ht2 hnd2
      have hshrink : (st.toJoin.filter (fun x => decide (x ≠ e))).length <
          st.toJoin.length :=
        filter_ne_length_lt (hsub e (List.mem_cons_self _ _))
      refine ⟨hres.1, hres.2.1, ?_, hres.2.2.2.1, ?_⟩
      · exact hres.2.2.1.trans (List.filter_sublist _)
      · intro _
        right
        have hle2 : (passOne adj extMap rest
            { toJoin := st.toJoin.filter (fun x => decide (x ≠ e)),
              joined := st.joined ++ path.filter (fun x => decide (x ∉ st.joined)),
              clauses := st.clauses ++ clausesAlongPath extMap adj path,
              found := true }).toJoin.length ≤
            (st.toJoin.filter (fun x => decide (x ≠ e))).length :=
          hres.2.2.1.length_le
        omega

theorem joinLoop_fallback (adj : AdjList) (extMap : String → String)
    {base t : String} (hreach_t : ¬ ReachableTable adj base t) :
    ∀ (fuel : Nat) (st : JoinState),
      t ∈ st.toJoin → (∀ j ∈ st.joined, ReachableTable adj base j) →
      st.toJoin.Nodup → st.toJoin.length < fuel →
      joinLoop adj extMap fuel st = ("", true) := by
  intro fuel
  induction fuel with
  | zero =>
    intro st ht _ _ hf
    have : 0 < st.toJoin.length := List.length_pos_of_mem ht
    omega
  | succ fuel ih =>
    intro st ht hj hnd hf
    have hne : st.toJoin.isEmpty = false := by
      rcases h : st.toJoin with _ | ⟨a, l⟩
      · rw [h] at ht
        simp at ht
      · rfl
    simp only [joinLoop, hne, Bool.false_eq_true, if_false]
    have hps := passOne_spec adj extMap hreach_t st.toJoin
      { st with found := false } hnd (fun x hx => hx) hj ht hnd
    by_cases hfound : (passOne adj extMap st.toJoin { st with found := false }).found = true
    · rw [if_pos hfound]
      apply ih
      · exact hps.2.1
      · exact hps.1
      · exact hps.2.2.2.1
      · rcases hps.2.2.2.2 hfound with hcase | hcase
        · simp at hcase
        · have : ({ st with found := false } : JoinState).toJoin.length =
              st.toJoin.length := rfl
          omega
    · rw [if_neg hfound]

/-- C6: when a target table's required source tables include one with no
foreign-key path from the already-joined tables, `run_transform` does not
raise: the SQL for that table degrades to an unconstrained cross join whose
FROM clause lists every source table with no JOIN clauses, and SQL generation
continues for every target-table group (one statement per group). -/
theorem claim_C6_cross_join_fallback (adj : AdjList) (extMap : String → String)
    (project dataset : String) (approved : List ApprovedMapping)
    (target : String) (mappings : List ApprovedMapping)
    (base : String) (others : List String)
    (hsplit : dedupKeepFirst (mappings.map (fun m => tablePart m.source_column)) =
      base :: others)
    {t : String} (ht : t ∈ others) (hur : ¬ ReachableTable adj base t) :
    generateSQLFor adj extMap project dataset target mappings =
      sqlText project dataset target mappings extMap
        (String.intercalate ", " ((base :: others).map extMap)) "" ∧
    run_transform adj extMap project dataset approved =
      (groupByTargetTable approved).map
        (fun g => generateSQLFor adj extMap project dataset g.1 g.2) ∧
    (run_transform adj extMap project dataset approved).length =
      (groupByTargetTable approved).length := by
  refine ⟨?_, rfl, by simp [run_transform]⟩
  have hnd : others.Nodup := by
    have h2 := dedupKeepFirst_nodup (mappings.map (fun m => tablePart m.source_column))
    rw [hsplit] at h2
    exact (List.nodup_cons.mp h2).2
  have hoe : others.isEmpty = false := by
    rcases h : others with _ | _
    · rw [h] at ht
      simp at ht
    · rfl
  have hloop := joinLoop_fallback adj extMap hur (others.length + 1)
    { toJoin := others, joined := [base], clauses := "", found := false }
    ht
    (by
      intro j hjm
      simp only [List.mem_singleton] at hjm
      subst hjm
      exact ⟨[j], WalkTo.base⟩)
    hnd (Nat.lt_succ_self _)
  unfold generateSQLFor
  rw [hsplit]
  dsimp only
  simp only [hoe, Bool.false_eq_true, if_false]
  rw [hloop]

/-- Witness mappings for C6: target `tt` needs source tables `s1` and `s2`,
and the FK graph is empty, so `s2` is unreachable from `s1`. -/
def transformWitMappings : List ApprovedMapping :=
  [⟨"s1.a", "tt.x"⟩, ⟨"s2.b", "tt.y"⟩]

theorem claim_C6_witness :
    generateSQLFor [] (fun s => s) "p" "d" "tt" transformWitMappings =
      sqlText "p" "d" "tt" transformWitMappings (fun s => s)
        (String.intercalate ", " (["s1", "s2"].map (fun s => s))) "" := by
  have hnr : ¬ ReachableTable [] "s1" "s2" := by
    rintro ⟨w, hw⟩
    have h := (find_join_path_bfs_spec [] "s1" "s2").2.mp
      (show find_join_path_bfs "s1" "s2" [] = none by decide)
    exact h ⟨w, hw.isTablePath⟩
  exact (claim_C6_cross_join_fallback [] (fun s => s) "p" "d" [] "tt"
    transformWitMappings "s1" ["s2"] (by decide)
    (show "s2" ∈ ["s2"] by decide) hnr).1

/-! ### Orchestrator agent (`src/orchestrator_agent/main.py::run_orchestration`)

The pipeline steps call external collaborators; each step's outcome (normal
return or raised exception) is an input to the embedding. The trace records
the WebSocket broadcasts, state-store updates, run-status mutations and
cleanup delete attempts, in emission order. A state store and WebSocket
manager are taken to be present. -/

/-- An observable event of one orchestration run. -/
inductive OrchEvent
  | ws (step : String) (status : String) (progress : Nat)
  | st (step : String) (progress : Nat) (status : String)
  | markFailed (msg : String)
  | markComplete
  | deleteTable (tableName : String)
  | warnDelete (tableName : String)
deriving Repr, DecidableEq

/-- Outcome of one pipeline step: normal return or a raised exception. -/
inductive StepResult
  | ok
  | err (msg : String)
deriving Repr, DecidableEq

/-- The step outcomes and sizes driving one `run_orchestration` execution. -/
structure OrchInputs where
  profilerR : StepResult
  stagingR : StepResult
  stagedBeforeFail : Nat
  mapperR : StepResult
  enableHitl : Bool
  hitlR : StepResult
  createTablesR : StepResult
  transformR : StepResult
  nTransform : Nat
  executedBeforeFail : Nat
  executeR : StepResult
  validatorR : StepResult
  feedbackR : StepResult
  profiledTables : List String

/-- `broadcast(started) ; update_state(started)` for one step. -/
def preEv (s : String) (p : Nat) : List OrchEvent :=
  [.ws s "started" p, .st s p "started"]

/-- `broadcast(completed) ; update_state(completed)` for one step. -/
def postEv (s : String) (p : Nat) : List OrchEvent :=
  [.ws s "completed" p, .st s p "completed"]

def evProfiler : List OrchEvent := preEv "profiler" 5 ++ postEv "profiler" 15

def evStaging : List OrchEvent := preEv "staging" 20 ++ postEv "staging" 30

def evMapper : List OrchEvent := preEv "mapper" 35 ++ postEv "mapper" 45

/-- The per-query `execute running` broadcasts with
`progress = 80 + int((idx + 1) / len * 10)`. -/
def execRunning (n k : Nat) : List OrchEvent :=
  (List.range k).map (fun idx => OrchEvent.ws "execute" "running" (80 + ((idx + 1) * 10) / n))

def evExecute (n : Nat) : List OrchEvent :=
  preEv "execute" 80 ++ execRunning n n ++ postEv "execute" 90

def evCreate : List OrchEvent := preEv "create_tables" 60 ++ postEv "create_tables" 65

def evTransform : List OrchEvent := preEv "transform" 70 ++ postEv "transform" 75

def evValidator : List OrchEvent := preEv "validator" 92 ++ postEv "validator" 95

def evPublish : List OrchEvent := [.ws "publish" "completed" 97]

/-- Feedback events: the completion broadcast is emitted even when the
feedback call raises (its failure is logged, not escalated). -/
def evFeedback : List OrchEvent := preEv "feedback" 98 ++ postEv "feedback" 99

/-- The HITL step events: a `waiting` broadcast when HITL is enabled, then
completion at progress 55 (auto-approval also completes at 55). -/
def evHitlWaiting : List OrchEvent := [.ws "hitl" "waiting" 50, .st "hitl" 50 "waiting"]

def evHitl (enabled : Bool) : List OrchEvent :=
  if enabled then evHitlWaiting ++ postEv "hitl" 55 else postEv "hitl" 55

/-- The HITL segment: events plus error (only possible when HITL is enabled). -/
def hitlSegment (i : OrchInputs) : List OrchEvent × Option String :=
  if i.enableHitl then
    match i.hitlR with
    | .err m => (evHitlWaiting, some m)
    | .ok => (evHitl true, none)
  else (evHitl false, none)

/-- Steps from `create_tables` through `feedback` (all after staging, so the
staged-table list is fixed). Feedback failure does not abort. -/
def orchTail (i : OrchInputs) : List OrchEvent × Option String :=
  match i.createTablesR with
  | .err m => (preEv "create_tables" 60, some m)
  | .ok =>
    match i.transformR with
    | .err m => (evCreate ++ preEv "transform" 70, some m)
    | .ok =>
      match i.executeR with
      | .err m =>
        (evCreate ++ evTransform ++ preEv "execute" 80 ++
          execRunning i.nTransform (min i.executedBeforeFail i.nTransform), some m)
      | .ok =>
        match i.validatorR with
        | .err m =>
          (evCreate ++ evTransform ++ evExecute i.nTransform ++ preEv "validator" 92,
            some m)
        | .ok =>
          (evCreate ++ evTransform ++ evExecute i.nTransform ++ evValidator ++
            evPublish ++ evFeedback, none)

/-- The `try:` body of `run_orchestration`: events, first unrecoverable
error (if any), and the source tables holding an external-table id by the
time the body ends. -/
def orchBody (i : OrchInputs) : List OrchEvent × Option String × List String :=
  match i.profilerR with
  | .err m => (preEv "profiler" 5, some m, [])
  | .ok =>
    match i.stagingR with
    | .err m =>
      (evProfiler ++ preEv "staging" 20, some m,
        i.profiledTables.take i.stagedBeforeFail)
    | .ok =>
      match i.mapperR with
      | .err m => (evProfiler ++ evStaging ++ preEv "mapper" 35, some m, i.profiledTables)
      | .ok =>
        match hitlSegment i with
        | (evs, some m) =>
          (evProfiler ++ evStaging ++ evMapper ++ evs, some m, i.profiledTables)
        | (evs, none) =>
          match orchTail i with
          | (evs2, r) =>
            (evProfiler ++ evStaging ++ evMapper ++ evs ++ evs2, r, i.profiledTables)

/-- The `finally:` cleanup block: always runs, attempts to delete every
staged external table, and per-table failures only log a warning. -/
def cleanupEv (staged : List String) (deleteOk : String → Bool) : List OrchEvent :=
  [.ws "cleanup" "started" 100] ++
    (staged.map (fun t =>
      OrchEvent.deleteTable t :: (if deleteOk t then [] else [OrchEvent.warnDelete t]))).flatten ++
    [.ws "cleanup" "completed" 100]

/-- `run_orchestration`: body, completion/error handling (an error marks the
run failed and is re-raised), then the unconditional cleanup. -/
def run_orchestration (i : OrchInputs) (deleteOk : String → Bool) :
    List OrchEvent × Except String Unit :=
  match orchBody i with
  | (evs, some m, staged) =>
    (evs ++ [OrchEvent.ws "error" "failed" 0, OrchEvent.markFailed m] ++
      cleanupEv staged deleteOk, Except.error m)
  | (evs, none, staged) =>
    (evs ++ [OrchEvent.ws "completed" "success" 100, OrchEvent.markComplete] ++
      cleanupEv staged deleteOk, Except.ok ())

/-- The step names mentioned by broadcast/state events. -/
def stepNamesOf (evs : List OrchEvent) : List String :=
  evs.filterMap (fun e =>
    match e with
    | .ws s _ _ => some s
    | .st s _ _ => some s
    | _ => none)

/-- The progress values carried by broadcast/state events, in order. -/
def progressSeq (evs : List OrchEvent) : List Nat :=
  evs.filterMap (fun e =>
    match e with
    | .ws _ _ p => some p
    | .st _ p _ => some p
    | _ => none)

/-- The pipeline order of steps (the feedback step cannot abort the run). -/
def pipelineSteps : List String :=
  ["profiler", "staging", "mapper", "hitl", "create_tables", "transform",
   "execute", "validator", "publish", "feedback"]

def stepsAfter (s : String) : List String :=
  (pipelineSteps.dropWhile (fun x => x != s)).tail

/-- The first pipeline step that raises, with its message. -/
def failedStep (i : OrchInputs) : Option (String × String) :=
  match i.profilerR with
  | .err m => some ("profiler", m)
  | .ok =>
    match i.stagingR with
    | .err m => some ("staging", m)
    | .ok =>
      match i.mapperR with
      | .err m => some ("mapper", m)
      | .ok =>
        match (if i.enableHitl then i.hitlR else .ok) with
        | .err m => some ("hitl", m)
        | .ok =>
          match i.createTablesR with
          | .err m => some ("create_tables", m)
          | .ok =>
            match i.transformR with
            | .err m => some ("transform", m)
            | .ok =>
              match i.executeR with
              | .err m => some ("execute", m)
              | .ok =>
                match i.validatorR with
                | .err m => some ("validator", m)
                | .ok => none

theorem stepNamesOf_append (a b : List OrchEvent) :
    stepNamesOf (a ++ b) = stepNamesOf a ++ stepNamesOf b :=
  List.filterMap_append _ _ _

theorem progressSeq_append (a b : List OrchEvent) :
    progressSeq (a ++ b) = progressSeq a ++ progressSeq b :=
  List.filterMap_append _ _ _

theorem stepNamesOf_deletes (d : String → Bool) :
    ∀ l : List String,
      stepNamesOf ((l.map (fun t =>
        OrchEvent.deleteTable t :: (if d t then [] else [OrchEvent.warnDelete t]))).flatten) = [] := by
  intro l
  induction l with
  | nil => rfl
  | cons t rest ih =>
    rw [List.map_cons, List.flatten_cons]
    rw [show stepNamesOf (((OrchEvent.deleteTable t :: (if d t then [] else [OrchEvent.warnDelete t]))) ++ ((rest.map (fun t => OrchEvent.deleteTable t :: (if d t then [] else [OrchEvent.warnDelete t]))).flatten)) = stepNamesOf ((OrchEvent.deleteTable t :: (if d t then [] else [OrchEvent.warnDelete t]))) ++ stepNamesOf ((rest.map (fun t => OrchEvent.deleteTable t :: (if d t then [] else [OrchEvent.warnDelete t]))).flatten) from stepNamesOf_append _ _]
    rw [ih]
    by_cases h : d t
    · simp [h, stepNamesOf]
    · simp [h, stepNamesOf]

theorem progressSeq_deletes (d : String → Bool) :
    ∀ l : List String,
      progressSeq ((l.map (fun t =>
        OrchEvent.deleteTable t :: (if d t then [] else [OrchEvent.warnDelete t]))).flatten) = [] := by
  intro l
  induction l with
  | nil => rfl
  | cons t rest ih =>
    rw [List.map_cons, List.flatten_cons]
    rw [progressSeq_append, ih]
    by_cases h : d t
    · simp [h, progressSeq]
    · simp [h, progressSeq]

theorem stepNamesOf_cleanup (staged : List String) (d : String → Bool) :
    stepNamesOf (cleanupEv staged d) = ["cleanup", "cleanup"] := by
  unfold cleanupEv
  rw [stepNamesOf_append, stepNamesOf_append, stepNamesOf_deletes]
  rfl

theorem progressSeq_cleanup (staged : List String) (d : String → Bool) :
    progressSeq (cleanupEv staged d) = [100, 100] := by
  unfold cleanupEv
  rw [progressSeq_append, progressSeq_append, progressSeq_deletes]
  rfl

theorem stepNamesOf_execRunning (n k : Nat) :
    stepNamesOf (execRunning n k) = List.replicate k "execute" := by
  unfold execRunning stepNamesOf
  rw [List.filterMap_map]
  rw [show ((fun e => match e with
      | OrchEvent.ws s _ _ => some s
      | OrchEvent.st s _ _ => some s
      | _ => none) ∘ fun idx : Nat =>
        OrchEvent.ws "execute" "running" (80 + ((idx + 1) * 10) / n)) =
      (some ∘ fun _ : Nat => "execute") from rfl]
  rw [List.filterMap_eq_map, List.map_const', List.length_range]

theorem progressSeq_execRunning (n k : Nat) :
    progressSeq (execRunning n k) =
      (List.range k).map (fun idx => 80 + ((idx + 1) * 10) / n) := by
  unfold execRunning progressSeq
  rw [List.filterMap_map]
  rw [show ((fun e => match e with
      | OrchEvent.ws _ _ p => some p
      | OrchEvent.st _ p _ => some p
      | _ => none) ∘ fun idx : Nat =>
        OrchEvent.ws "execute" "running" (80 + ((idx + 1) * 10) / n)) =
      (some ∘ fun idx : Nat => 80 + ((idx + 1) * 10) / n) from rfl]
  rw [List.filterMap_eq_map]

theorem cleanup_delete_mem (staged : List String) (d : String → Bool) {t : String}
    (ht : t ∈ staged) : OrchEvent.deleteTable t ∈ cleanupEv staged d := by
  unfold cleanupEv
  rw [List.mem_append, List.mem_append]
  left
  right
  rw [List.mem_flatten]
  exact ⟨_, List.mem_map_of_mem _ ht, List.mem_cons_self _ _⟩

theorem cleanup_getLast (staged : List String) (d : String → Bool) :
    (cleanupEv staged d).getLast? = some (OrchEvent.ws "cleanup" "completed" 100) := by
  unfold cleanupEv
  rw [List.getLast?_append_of_ne_nil _ (show
    [OrchEvent.ws "cleanup" "completed" 100] ≠ ([] : List OrchEvent) by simp)]
  rfl

theorem cleanup_ne_nil (staged : List String) (d : String → Bool) :
    cleanupEv staged d ≠ [] := by
  unfold cleanupEv
  simp

theorem run_orch_getLast (i : OrchInputs) (d : String → Bool) :
    (run_orchestration i d).1.getLast? =
      some (OrchEvent.ws "cleanup" "completed" 100) := by
  unfold run_orchestration
  rcases horch : orchBody i with ⟨evs, r, staged⟩
  cases r with
  | some m =>
    dsimp only
    rw [List.getLast?_append_of_ne_nil _ (cleanup_ne_nil staged d)]
    exact cleanup_getLast staged d
  | none =>
    dsimp only
    rw [List.getLast?_append_of_ne_nil _ (cleanup_ne_nil staged d)]
    exact cleanup_getLast staged d

theorem run_orch_result_independent (i : OrchInputs) (d d2 : String → Bool) :
    (run_orchestration i d).2 = (run_orchestration i d2).2 := by
  unfold run_orchestration
  rcases horch : orchBody i with ⟨evs, r, staged⟩
  cases r <;> rfl

theorem run_orch_cleanup_deletes (i : OrchInputs) (d : String → Bool) :
    ∀ t ∈ (orchBody i).2.2, OrchEvent.deleteTable t ∈ (run_orchestration i d).1 := by
  intro t ht
  unfold run_orchestration
  rcases horch : orchBody i with ⟨evs, r, staged⟩
  rw [horch] at ht
  have ht2 : t ∈ staged := ht
  cases r with
  | some m =>
    dsimp only
    simp only [List.mem_append]
    exact Or.inr (cleanup_delete_mem staged d ht2)
  | none =>
    dsimp only
    simp only [List.mem_append]
    exact Or.inr (cleanup_delete_mem staged d ht2)

theorem run_orch_of_body_err {i : OrchInputs} {evs : List OrchEvent} {m : String}
    {staged : List String} (d : String → Bool)
    (hbody : orchBody i = (evs, some m, staged)) :
    run_orchestration i d =
      (evs ++ [OrchEvent.ws "error" "failed" 0, OrchEvent.markFailed m] ++
        cleanupEv staged d, Except.error m) := by
  unfold run_orchestration
  rw [hbody]

theorem stepNamesOf_sub_append {a b : List OrchEvent} {A : List String}
    (ha : ∀ x ∈ stepNamesOf a, x ∈ A) (hb : ∀ x ∈ stepNamesOf b, x ∈ A) :
    ∀ x ∈ stepNamesOf (a ++ b), x ∈ A := by
  intro x hx
  rw [stepNamesOf_append, List.mem_append] at hx
  rcases hx with h | h
  · exact ha x h
  · exact hb x h

theorem names_err_pair (m : String) :
    stepNamesOf [OrchEvent.ws "error" "failed" 0, OrchEvent.markFailed m] = ["error"] := rfl

theorem sub_of_names_eq {l : List OrchEvent} {ns A : List String}
    (h : stepNamesOf l = ns) (hsub : ∀ x ∈ ns, x ∈ A) :
    ∀ x ∈ stepNamesOf l, x ∈ A := by
  intro x hx
  rw [h] at hx
  exact hsub x hx


theorem names_evExecute_sub {n : Nat} {A : List String}
    (hA : "execute" ∈ A) : ∀ x ∈ stepNamesOf (evExecute n), x ∈ A := by
  intro x hx
  unfold evExecute at hx
  rw [stepNamesOf_append, stepNamesOf_append, stepNamesOf_execRunning] at hx
  simp only [List.mem_append] at hx
  rcases hx with (h | h) | h
  · have h2 : x ∈ (["execute", "execute"] : List String) := h
    have h3 : x = "execute" := by simpa using h2
    rwa [h3]
  · have h3 : x = "execute" := List.eq_of_mem_replicate h
    rwa [h3]
  · have h2 : x ∈ (["execute", "execute"] : List String) := h
    have h3 : x = "execute" := by simpa using h2
    rwa [h3]

/-- C7: in `run_orchestration`, a step that raises makes the run fail: the
result is `Except.error` with that step's message, `mark_run_failed` records
the message, and no broadcast or state event ever names a pipeline step after
the failing one; independently of success or failure, cleanup always runs —
every staged external table receives a delete attempt, the event trace ends
with the cleanup-completed broadcast, and per-table delete failures (modelled
by the `deleteOk` oracle) never change the run result. -/
theorem claim_C7_failure_and_cleanup (i : OrchInputs) (d d2 : String → Bool) :
    (∀ s m, failedStep i = some (s, m) →
      (run_orchestration i d).2 = Except.error m ∧
      OrchEvent.markFailed m ∈ (run_orchestration i d).1 ∧
      ∀ s2 ∈ stepsAfter s, s2 ∉ stepNamesOf (run_orchestration i d).1) ∧
    (∀ t ∈ (orchBody i).2.2, OrchEvent.deleteTable t ∈ (run_orchestration i d).1) ∧
    (run_orchestration i d).1.getLast? = some (OrchEvent.ws "cleanup" "completed" 100) ∧
    (run_orchestration i d).2 = (run_orchestration i d2).2 := by
  refine ⟨?_, run_orch_cleanup_deletes i d, run_orch_getLast i d,
    run_orch_result_independent i d d2⟩
  intro s m hfs
  cases hpr : i.profilerR with
  | err m1 =>
    have hfs2 : failedStep i = some ("profiler", m1) := by
      unfold failedStep
      rw [hpr]
    rw [hfs2] at hfs
    have hpair := Option.some.inj hfs
    injection hpair with hs hm
    subst hs
    subst hm
    have hbody : orchBody i = (preEv "profiler" 5, some m1, ([] : List String)) := by
      unfold orchBody
      rw [hpr]
    rw [run_orch_of_body_err d hbody]
    refine ⟨rfl, List.mem_append_left _ (List.mem_append_right _ (by simp)), ?_⟩
    intro s2 hs2 hmem
    have hsub : ∀ x ∈ stepNamesOf (preEv "profiler" 5 ++ [OrchEvent.ws "error" "failed" 0, OrchEvent.markFailed m1] ++ cleanupEv (([] : List String)) d), x ∈ (["profiler", "error", "cleanup"] : List String) :=
      stepNamesOf_sub_append (stepNamesOf_sub_append (by decide) (sub_of_names_eq (names_err_pair m1) (by decide))) (sub_of_names_eq (stepNamesOf_cleanup _ _) (by decide))
    exact (by decide : ∀ x ∈ stepsAfter "profiler", x ∉ (["profiler", "error", "cleanup"] : List String)) s2 hs2 (hsub s2 hmem)
  | ok =>
    cases hst : i.stagingR with
    | err m1 =>
      have hfs2 : failedStep i = some ("staging", m1) := by
        unfold failedStep
        rw [hpr, hst]
      rw [hfs2] at hfs
      have hpair := Option.some.inj hfs
      injection hpair with hs hm
      subst hs
      subst hm
      have hbody : orchBody i = (evProfiler ++ preEv "staging" 20, some m1, i.profiledTables.take i.stagedBeforeFail) := by
        unfold orchBody
        rw [hpr, hst]
      rw [run_orch_of_body_err d hbody]
      refine ⟨rfl, List.mem_append_left _ (List.mem_append_right _ (by simp)), ?_⟩
      intro s2 hs2 hmem
      have hsub : ∀ x ∈ stepNamesOf (evProfiler ++ preEv "staging" 20 ++ [OrchEvent.ws "error" "failed" 0, OrchEvent.markFailed m1] ++ cleanupEv (i.profiledTables.take i.stagedBeforeFail) d), x ∈ (["profiler", "staging", "error", "cleanup"] : List String) :=
        stepNamesOf_sub_append (stepNamesOf_sub_append (stepNamesOf_sub_append (by decide) (by decide)) (sub_of_names_eq (names_err_pair m1) (by decide))) (sub_of_names_eq (stepNamesOf_cleanup _ _) (by decide))
      exact (by decide : ∀ x ∈ stepsAfter "staging", x ∉ (["profiler", "staging", "error", "cleanup"] : List String)) s2 hs2 (hsub s2 hmem)
    | ok =>
      cases hmp : i.mapperR with
      | err m1 =>
        have hfs2 : failedStep i = some ("mapper", m1) := by
          unfold failedStep
          rw [hpr, hst, hmp]
        rw [hfs2] at hfs
        have hpair := Option.some.inj hfs
        injection hpair with hs hm
        subst hs
        subst hm
        have hbody : orchBody i = (evProfiler ++ evStaging ++ preEv "mapper" 35, some m1, i.profiledTables) := by
          unfold orchBody
          rw [hpr, hst, hmp]
        rw [run_orch_of_body_err d hbody]
        refine ⟨rfl, List.mem_append_left _ (List.mem_append_right _ (by simp)), ?_⟩
        intro s2 hs2 hmem
        have hsub : ∀ x ∈ stepNamesOf (evProfiler ++ evStaging ++ preEv "mapper" 35 ++ [OrchEvent.ws "error" "failed" 0, OrchEvent.markFailed m1] ++ cleanupEv (i.profiledTables) d), x ∈ (["profiler", "staging", "mapper", "error", "cleanup"] : List String) :=
          stepNamesOf_sub_append (stepNamesOf_sub_append (stepNamesOf_sub_append (stepNamesOf_sub_append (by decide) (by decide)) (by decide)) (sub_of_names_eq (names_err_pair m1) (by decide))) (sub_of_names_eq (stepNamesOf_cleanup _ _) (by decide))
        exact (by decide : ∀ x ∈ stepsAfter "mapper", x ∉ (["profiler", "staging", "mapper", "error", "cleanup"] : List String)) s2 hs2 (hsub s2 hmem)
      | ok =>
        cases heh : i.enableHitl with
        | true =>
          cases hhr : i.hitlR with
          | err m1 =>
            have hfs2 : failedStep i = some ("hitl", m1) := by
              unfold failedStep
              rw [hpr, hst, hmp, heh, hhr]
              all_goals rfl
            rw [hfs2] at hfs
            have hpair := Option.some.inj hfs
            injection hpair with hs hm
            subst hs
            subst hm
            have hbody : orchBody i = (evProfiler ++ evStaging ++ evMapper ++ evHitlWaiting, some m1, i.profiledTables) := by
              unfold orchBody hitlSegment
              rw [hpr, hst, hmp, heh, hhr]
              all_goals rfl
            rw [run_orch_of_body_err d hbody]
            refine ⟨rfl, List.mem_append_left _ (List.mem_append_right _ (by simp)), ?_⟩
            intro s2 hs2 hmem
            have hsub : ∀ x ∈ stepNamesOf (evProfiler ++ evStaging ++ evMapper ++ evHitlWaiting ++ [OrchEvent.ws "error" "failed" 0, OrchEvent.markFailed m1] ++ cleanupEv (i.profiledTables) d), x ∈ (["profiler", "staging", "mapper", "hitl", "error", "cleanup"] : List String) :=
              stepNamesOf_sub_append (stepNamesOf_sub_append (stepNamesOf_sub_append (stepNamesOf_sub_append (stepNamesOf_sub_append (by decide) (by decide)) (by decide)) (by decide)) (sub_of_names_eq (names_err_pair m1) (by decide))) (sub_of_names_eq (stepNamesOf_cleanup _ _) (by decide))
            exact (by decide : ∀ x ∈ stepsAfter "hitl", x ∉ (["profiler", "staging", "mapper", "hitl", "error", "cleanup"] : List String)) s2 hs2 (hsub s2 hmem)
          | ok =>
            cases hcr : i.createTablesR with
            | err m1 =>
              have hfs2 : failedStep i = some ("create_tables", m1) := by
                unfold failedStep
                rw [hpr, hst, hmp, heh, hhr, hcr]
                all_goals rfl
              rw [hfs2] at hfs
              have hpair := Option.some.inj hfs
              injection hpair with hs hm
              subst hs
              subst hm
              have hbody : orchBody i = (evProfiler ++ evStaging ++ evMapper ++ evHitl true ++ preEv "create_tables" 60, some m1, i.profiledTables) := by
                unfold orchBody hitlSegment orchTail
                rw [hpr, hst, hmp, heh, hhr, hcr]
                all_goals rfl
              rw [run_orch_of_body_err d hbody]
              refine ⟨rfl, List.mem_append_left _ (List.mem_append_right _ (by simp)), ?_⟩
              intro s2 hs2 hmem
              have hsub : ∀ x ∈ stepNamesOf (evProfiler ++ evStaging ++ evMapper ++ evHitl true ++ preEv "create_tables" 60 ++ [OrchEvent.ws "error" "failed" 0, OrchEvent.markFailed m1] ++ cleanupEv (i.profiledTables) d), x ∈ (["profiler", "staging", "mapper", "hitl", "create_tables", "error", "cleanup"] : List String) :=
                stepNamesOf_sub_append (stepNamesOf_sub_append (stepNamesOf_sub_append (stepNamesOf_sub_append (stepNamesOf_sub_append (stepNamesOf_sub_append (by decide) (by decide)) (by decide)) (by decide)) (by decide)) (sub_of_names_eq (names_err_pair m1) (by decide))) (sub_of_names_eq (stepNamesOf_cleanup _ _) (by decide))
              exact (by decide : ∀ x ∈ stepsAfter "create_tables", x ∉ (["profiler", "staging", "mapper", "hitl", "create_tables", "error", "cleanup"] : List String)) s2 hs2 (hsub s2 hmem)
            | ok =>
              cases htr : i.transformR with
              | err m1 =>
                have hfs2 : failedStep i = some ("transform", m1) := by
                  unfold failedStep
                  rw [hpr, hst, hmp, heh, hhr, hcr, htr]
                  all_goals rfl
                rw [hfs2] at hfs
                have hpair := Option.some.inj hfs
                injection hpair with hs hm
                subst hs
                subst hm
                have hbody : orchBody i = (evProfiler ++ evStaging ++ evMapper ++ evHitl true ++ (evCreate ++ preEv "transform" 70), some m1, i.profiledTables) := by
                  unfold orchBody hitlSegment orchTail
                  rw [hpr, hst, hmp, heh, hhr, hcr, htr]
                  all_goals rfl
                rw [run_orch_of_body_err d hbody]
                refine ⟨rfl, List.mem_append_left _ (List.mem_append_right _ (by simp)), ?_⟩
                intro s2 hs2 hmem
                have hsub : ∀ x ∈ stepNamesOf (evProfiler ++ evStaging ++ evMapper ++ evHitl true ++ (evCreate ++ preEv "transform" 70) ++ [OrchEvent.ws "error" "failed" 0, OrchEvent.markFailed m1] ++ cleanupEv (i.profiledTables) d), x ∈ (["profiler", "staging", "mapper", "hitl", "create_tables", "transform", "error", "cleanup"] : List String) :=
                  stepNamesOf_sub_append (stepNamesOf_sub_append (stepNamesOf_sub_append (stepNamesOf_sub_append (stepNamesOf_sub_append (stepNamesOf_sub_append (by decide) (by decide)) (by decide)) (by decide)) (stepNamesOf_sub_append (by decide) (by decide))) (sub_of_names_eq (names_err_pair m1) (by decide))) (sub_of_names_eq (stepNamesOf_cleanup _ _) (by decide))
                exact (by decide : ∀ x ∈ stepsAfter "transform", x ∉ (["profiler", "staging", "mapper", "hitl", "create_tables", "transform", "error", "cleanup"] : List String)) s2 hs2 (hsub s2 hmem)
              | ok =>
                cases her : i.executeR with
                | err m1 =>
                  have hfs2 : failedStep i = some ("execute", m1) := by
                    unfold failedStep
                    rw [hpr, hst, hmp, heh, hhr, hcr, htr, her]
                    all_goals rfl
                  rw [hfs2] at hfs
                  have hpair := Option.some.inj hfs
                  injection hpair with hs hm
                  subst hs
                  subst hm
                  have hbody : orchBody i = (evProfiler ++ evStaging ++ evMapper ++ evHitl true ++ (evCreate ++ evTransform ++ preEv "execute" 80 ++ execRunning i.nTransform (min i.executedBeforeFail i.nTransform)), some m1, i.profiledTables) := by
                    unfold orchBody hitlSegment orchTail
                    rw [hpr, hst, hmp, heh, hhr, hcr, htr, her]
                    all_goals rfl
                  rw [run_orch_of_body_err d hbody]
                  refine ⟨rfl, List.mem_append_left _ (List.mem_append_right _ (by simp)), ?_⟩
                  intro s2 hs2 hmem
                  have hsub : ∀ x ∈ stepNamesOf (evProfiler ++ evStaging ++ evMapper ++ evHitl true ++ (evCreate ++ evTransform ++ preEv "execute" 80 ++ execRunning i.nTransform (min i.executedBeforeFail i.nTransform)) ++ [OrchEvent.ws "error" "failed" 0, OrchEvent.markFailed m1] ++ cleanupEv (i.profiledTables) d), x ∈ (["profiler", "staging", "mapper", "hitl", "create_tables", "transform", "execute", "error", "cleanup"] : List String) :=
                    stepNamesOf_sub_append (stepNamesOf_sub_append (stepNamesOf_sub_append (stepNamesOf_sub_append (stepNamesOf_sub_append (stepNamesOf_sub_append (by decide) (by decide)) (by decide)) (by decide)) (stepNamesOf_sub_append (stepNamesOf_sub_append (stepNamesOf_sub_append (by decide) (by decide)) (by decide)) (sub_of_names_eq (stepNamesOf_execRunning _ _) (fun x hx => by rw [List.eq_of_mem_replicate hx]; decide)))) (sub_of_names_eq (names_err_pair m1) (by decide))) (sub_of_names_eq (stepNamesOf_cleanup _ _) (by decide))
                  exact (by decide : ∀ x ∈ stepsAfter "execute", x ∉ (["profiler", "staging", "mapper", "hitl", "create_tables", "transform", "execute", "error", "cleanup"] : List String)) s2 hs2 (hsub s2 hmem)
                | ok =>
                  cases hvr : i.validatorR with
                  | err m1 =>
                    have hfs2 : failedStep i = some ("validator", m1) := by
                      unfold failedStep
                      rw [hpr, hst, hmp, heh, hhr, hcr, htr, her, hvr]
                      all_goals rfl
                    rw [hfs2] at hfs
                    have hpair := Option.some.inj hfs
                    injection hpair with hs hm
                    subst hs
                    subst hm
                    have hbody : orchBody i = (evProfiler ++ evStaging ++ evMapper ++ evHitl true ++ (evCreate ++ evTransform ++ evExecute i.nTransform ++ preEv "validator" 92), some m1, i.profiledTables) := by
                      unfold orchBody hitlSegment orchTail
                      rw [hpr, hst, hmp, heh, hhr, hcr, htr, her, hvr]
                      all_goals rfl
                    rw [run_orch_of_body_err d hbody]
                    refine ⟨rfl, List.mem_append_left _ (List.mem_append_right _ (by simp)), ?_⟩
                    intro s2 hs2 hmem
                    have hsub : ∀ x ∈ stepNamesOf (evProfiler ++ evStaging ++ evMapper ++ evHitl true ++ (evCreate ++ evTransform ++ evExecute i.nTransform ++ preEv "validator" 92) ++ [OrchEvent.ws "error" "failed" 0, OrchEvent.markFailed m1] ++ cleanupEv (i.profiledTables) d), x ∈ (["profiler", "staging", "mapper", "hitl", "create_tables", "transform", "execute", "validator", "error", "cleanup"] : List String) :=
                      stepNamesOf_sub_append (stepNamesOf_sub_append (stepNamesOf_sub_append (stepNamesOf_sub_append (stepNamesOf_sub_append (stepNamesOf_sub_append (by decide) (by decide)) (by decide)) (by decide)) (stepNamesOf_sub_append (stepNamesOf_sub_append (stepNamesOf_sub_append (by decide) (by decide)) (names_evExecute_sub (by decide))) (by decide))) (sub_of_names_eq (names_err_pair m1) (by decide))) (sub_of_names_eq (stepNamesOf_cleanup _ _) (by decide))
                    exact (by decide : ∀ x ∈ stepsAfter "validator", x ∉ (["profiler", "staging", "mapper", "hitl", "create_tables", "transform", "execute", "validator", "error", "cleanup"] : List String)) s2 hs2 (hsub s2 hmem)
                  | ok =>
                    have hfs2 : failedStep i = none := by
                      unfold failedStep
                      rw [hpr, hst, hmp, heh, hhr, hcr, htr, her, hvr]
                      all_goals rfl
                    rw [hfs2] at hfs
                    exact Option.noConfusion hfs
        | false =>
          cases hcr : i.createTablesR with
          | err m1 =>
            have hfs2 : failedStep i = some ("create_tables", m1) := by
              unfold failedStep
              rw [hpr, hst, hmp, heh, hcr]
              all_goals rfl
            rw [hfs2] at hfs
            have hpair := Option.some.inj hfs
            injection hpair with hs hm
            subst hs
            subst hm
            have hbody : orchBody i = (evProfiler ++ evStaging ++ evMapper ++ evHitl false ++ preEv "create_tables" 60, some m1, i.profiledTables) := by
              unfold orchBody hitlSegment orchTail
              rw [hpr, hst, hmp, heh, hcr]
              all_goals rfl
            rw [run_orch_of_body_err d hbody]
            refine ⟨rfl, List.mem_append_left _ (List.mem_append_right _ (by simp)), ?_⟩
            intro s2 hs2 hmem
            have hsub : ∀ x ∈ stepNamesOf (evProfiler ++ evStaging ++ evMapper ++ evHitl false ++ preEv "create_tables" 60 ++ [OrchEvent.ws "error" "failed" 0, OrchEvent.markFailed m1] ++ cleanupEv (i.profiledTables) d), x ∈ (["profiler", "staging", "mapper", "hitl", "create_tables", "error", "cleanup"] : List String) :=
              stepNamesOf_sub_append (stepNamesOf_sub_append (stepNamesOf_sub_append (stepNamesOf_sub_append (stepNamesOf_sub_append (stepNamesOf_sub_append (by decide) (by decide)) (by decide)) (by decide)) (by decide)) (sub_of_names_eq (names_err_pair m1) (by decide))) (sub_of_names_eq (stepNamesOf_cleanup _ _) (by decide))
            exact (by decide : ∀ x ∈ stepsAfter "create_tables", x ∉ (["profiler", "staging", "mapper", "hitl", "create_tables", "error", "cleanup"] : List String)) s2 hs2 (hsub s2 hmem)
          | ok =>
            cases htr : i.transformR with
            | err m1 =>
              have hfs2 : failedStep i = some ("transform", m1) := by
                unfold failedStep
                rw [hpr, hst, hmp, heh, hcr, htr]
                all_goals rfl
              rw [hfs2] at hfs
              have hpair := Option.some.inj hfs
              injection hpair with hs hm
              subst hs
              subst hm
              have hbody : orchBody i = (evProfiler ++ evStaging ++ evMapper ++ evHitl false ++ (evCreate ++ preEv "transform" 70), some m1, i.profiledTables) := by
                unfold orchBody hitlSegment orchTail
                rw [hpr, hst, hmp, heh, hcr, htr]
                all_goals rfl
              rw [run_orch_of_body_err d hbody]
              refine ⟨rfl, List.mem_append_left _ (List.mem_append_right _ (by simp)), ?_⟩
              intro s2 hs2 hmem
              have hsub : ∀ x ∈ stepNamesOf (evProfiler ++ evStaging ++ evMapper ++ evHitl false ++ (evCreate ++ preEv "transform" 70) ++ [OrchEvent.ws "error" "failed" 0, OrchEvent.markFailed m1] ++ cleanupEv (i.profiledTables) d), x ∈ (["profiler", "staging", "mapper", "hitl", "create_tables", "transform", "error", "cleanup"] : List String) :=
                stepNamesOf_sub_append (stepNamesOf_sub_append (stepNamesOf_sub_append (stepNamesOf_sub_append (stepNamesOf_sub_append (stepNamesOf_sub_append (by decide) (by decide)) (by decide)) (by decide)) (stepNamesOf_sub_append (by decide) (by decide))) (sub_of_names_eq (names_err_pair m1) (by decide))) (sub_of_names_eq (stepNamesOf_cleanup _ _) (by decide))
              exact (by decide : ∀ x ∈ stepsAfter "transform", x ∉ (["profiler", "staging", "mapper", "hitl", "create_tables", "transform", "error", "cleanup"] : List String)) s2 hs2 (hsub s2 hmem)
            | ok =>
              cases her : i.executeR with
              | err m1 =>
                have hfs2 : failedStep i = some ("execute", m1) := by
                  unfold failedStep
                  rw [hpr, hst, hmp, heh, hcr, htr, her]
                  all_goals rfl
                rw [hfs2] at hfs
                have hpair := Option.some.inj hfs
                injection hpair with hs hm
                subst hs
                subst hm
                have hbody : orchBody i = (evProfiler ++ evStaging ++ evMapper ++ evHitl false ++ (evCreate ++ evTransform ++ preEv "execute" 80 ++ execRunning i.nTransform (min i.executedBeforeFail i.nTransform)), some m1, i.profiledTables) := by
                  unfold orchBody hitlSegment orchTail
                  rw [hpr, hst, hmp, heh, hcr, htr, her]
                  all_goals rfl
                rw [run_orch_of_body_err d hbody]
                refine ⟨rfl, List.mem_append_left _ (List.mem_append_right _ (by simp)), ?_⟩
                intro s2 hs2 hmem
                have hsub : ∀ x ∈ stepNamesOf (evProfiler ++ evStaging ++ evMapper ++ evHitl false ++ (evCreate ++ evTransform ++ preEv "execute" 80 ++ execRunning i.nTransform (min i.executedBeforeFail i.nTransform)) ++ [OrchEvent.ws "error" "failed" 0, OrchEvent.markFailed m1] ++ cleanupEv (i.profiledTables) d), x ∈ (["profiler", "staging", "mapper", "hitl", "create_tables", "transform", "execute", "error", "cleanup"] : List String) :=
                  stepNamesOf_sub_append (stepNamesOf_sub_append (stepNamesOf_sub_append (stepNamesOf_sub_append (stepNamesOf_sub_append (stepNamesOf_sub_append (by decide) (by decide)) (by decide)) (by decide)) (stepNamesOf_sub_append (stepNamesOf_sub_append (stepNamesOf_sub_append (by decide) (by decide)) (by decide)) (sub_of_names_eq (stepNamesOf_execRunning _ _) (fun x hx => by rw [List.eq_of_mem_replicate hx]; decide)))) (sub_of_names_eq (names_err_pair m1) (by decide))) (sub_of_names_eq (stepNamesOf_cleanup _ _) (by decide))
                exact (by decide : ∀ x ∈ stepsAfter "execute", x ∉ (["profiler", "staging", "mapper", "hitl", "create_tables", "transform", "execute", "error", "cleanup"] : List String)) s2 hs2 (hsub s2 hmem)
              | ok =>
                cases hvr : i.validatorR with
                | err m1 =>
                  have hfs2 : failedStep i = some ("validator", m1) := by
                    unfold failedStep
                    rw [hpr, hst, hmp, heh, hcr, htr, her, hvr]
                    all_goals rfl
                  rw [hfs2] at hfs
                  have hpair := Option.some.inj hfs
                  injection hpair with hs hm
                  subst hs
                  subst hm
                  have hbody : orchBody i = (evProfiler ++ evStaging ++ evMapper ++ evHitl false ++ (evCreate ++ evTransform ++ evExecute i.nTransform ++ preEv "validator" 92), some m1, i.profiledTables) := by
                    unfold orchBody hitlSegment orchTail
                    rw [hpr, hst, hmp, heh, hcr, htr, her, hvr]
                    all_goals rfl
                  rw [run_orch_of_body_err d hbody]
                  refine ⟨rfl, List.mem_append_left _ (List.mem_append_right _ (by simp)), ?_⟩
                  intro s2 hs2 hmem
                  have hsub : ∀ x ∈ stepNamesOf (evProfiler ++ evStaging ++ evMapper ++ evHitl false ++ (evCreate ++ evTransform ++ evExecute i.nTransform ++ preEv "validator" 92) ++ [OrchEvent.ws "error" "failed" 0, OrchEvent.markFailed m1] ++ cleanupEv (i.profiledTables) d), x ∈ (["profiler", "staging", "mapper", "hitl", "create_tables", "transform", "execute", "validator", "error", "cleanup"] : List String) :=
                    stepNamesOf_sub_append (stepNamesOf_sub_append (stepNamesOf_sub_append (stepNamesOf_sub_append (stepNamesOf_sub_append (stepNamesOf_sub_append (by decide) (by decide)) (by decide)) (by decide)) (stepNamesOf_sub_append (stepNamesOf_sub_append (stepNamesOf_sub_append (by decide) (by decide)) (names_evExecute_sub (by decide))) (by decide))) (sub_of_names_eq (names_err_pair m1) (by decide))) (sub_of_names_eq (stepNamesOf_cleanup _ _) (by decide))
                  exact (by decide : ∀ x ∈ stepsAfter "validator", x ∉ (["profiler", "staging", "mapper", "hitl", "create_tables", "transform", "execute", "validator", "error", "cleanup"] : List String)) s2 hs2 (hsub s2 hmem)
                | ok =>
                  have hfs2 : failedStep i = none := by
                    unfold failedStep
                    rw [hpr, hst, hmp, heh, hcr, htr, her, hvr]
                    all_goals rfl
                  rw [hfs2] at hfs
                  exact Option.noConfusion hfs

/-- A concrete orchestration run whose transform step raises `"boom"` with two
profiled (hence staged) source tables. -/
def orchWitInputs : OrchInputs :=
  { profilerR := .ok, stagingR := .ok, stagedBeforeFail := 0, mapperR := .ok,
    enableHitl := false, hitlR := .ok, createTablesR := .ok,
    transformR := .err "boom", nTransform := 2, executedBeforeFail := 0,
    executeR := .ok, validatorR := .ok, feedbackR := .ok,
    profiledTables := ["stg_a", "stg_b"] }

def orchWitDel : String → Bool := fun _ => true

def orchWitDel2 : String → Bool := fun _ => false

/-- Witness for C7: on the concrete transform-failure run the result is the
re-raised error, the failure is recorded, the later `execute` step never
appears in the trace, both staged tables get delete attempts, the trace ends
with the cleanup-completed broadcast, and making every delete fail does not
change the result. -/
theorem claim_C7_witness :
    failedStep orchWitInputs = some ("transform", "boom") ∧
    "execute" ∈ stepsAfter "transform" ∧
    ((run_orchestration orchWitInputs orchWitDel).2 = Except.error "boom" ∧
      OrchEvent.markFailed "boom" ∈ (run_orchestration orchWitInputs orchWitDel).1 ∧
      "execute" ∉ stepNamesOf (run_orchestration orchWitInputs orchWitDel).1) ∧
    (∀ t ∈ (orchBody orchWitInputs).2.2,
      OrchEvent.deleteTable t ∈ (run_orchestration orchWitInputs orchWitDel).1) ∧
    (run_orchestration orchWitInputs orchWitDel).1.getLast? =
      some (OrchEvent.ws "cleanup" "completed" 100) ∧
    (run_orchestration orchWitInputs orchWitDel).2 =
      (run_orchestration orchWitInputs orchWitDel2).2 := by
  have h := claim_C7_failure_and_cleanup orchWitInputs orchWitDel orchWitDel2
  have h1 := h.1 "transform" "boom" (by decide)
  exact ⟨by decide, by decide, ⟨h1.1, h1.2.1, h1.2.2 "execute" (by decide)⟩,
    h.2.1, h.2.2.1, h.2.2.2⟩

theorem execProg_mem_bounds {n y : Nat}
    (hy : y ∈ (List.range n).map (fun idx => 80 + ((idx + 1) * 10) / n)) :
    80 ≤ y ∧ y ≤ 90 := by
  rw [List.mem_map] at hy
  obtain ⟨idx, hidx, rfl⟩ := hy
  rw [List.mem_range] at hidx
  refine ⟨Nat.le_add_right _ _, ?_⟩
  have h1 : (idx + 1) * 10 ≤ n * 10 := Nat.mul_le_mul_right 10 (by omega)
  have h2 : (idx + 1) * 10 / n ≤ n * 10 / n := Nat.div_le_div_right h1
  have h3 : n * 10 / n = 10 := Nat.mul_div_cancel_left 10 (by omega)
  omega

theorem execProg_pairwise (n : Nat) :
    List.Pairwise (fun a b => a ≤ b)
      ((List.range n).map (fun idx => 80 + ((idx + 1) * 10) / n)) := by
  refine List.Pairwise.map _ ?_ (List.pairwise_lt_range n)
  intro a b hab
  exact Nat.add_le_add_left (Nat.div_le_div_right (Nat.mul_le_mul_right 10 (by omega))) 80

theorem progress_flat_chain (n : Nat) (P1 P2 : List Nat)
    (h1 : List.Pairwise (fun a b => a ≤ b) P1)
    (h2 : List.Pairwise (fun a b => a ≤ b) P2)
    (hb1 : ∀ x ∈ P1, x ≤ 80) (hb2 : ∀ y ∈ P2, 90 ≤ y) :
    List.Chain' (fun a b => a ≤ b)
      (P1 ++ ((List.range n).map (fun idx => 80 + ((idx + 1) * 10) / n) ++ P2)) := by
  apply List.Pairwise.chain'
  rw [List.pairwise_append]
  refine ⟨h1, ?_, ?_⟩
  · rw [List.pairwise_append]
    refine ⟨execProg_pairwise n, h2, ?_⟩
    intro x hx y hy
    have hb := execProg_mem_bounds hx
    have h90 := hb2 y hy
    omega
  · intro x hx y hy
    have h80 := hb1 x hx
    rw [List.mem_append] at hy
    rcases hy with hy | hy
    · have hb := execProg_mem_bounds hy
      omega
    · have h90 := hb2 y hy
      omega

/-- A run whose staging step raises after the profiler completed: the failure
broadcast then carries progress 0 after progress has reached 20. -/
def orchC8Inputs : OrchInputs :=
  { profilerR := .ok, stagingR := .err "staging boom", stagedBeforeFail := 0,
    mapperR := .ok, enableHitl := false, hitlR := .ok, createTablesR := .ok,
    transformR := .ok, nTransform := 0, executedBeforeFail := 0,
    executeR := .ok, validatorR := .ok, feedbackR := .ok, profiledTables := [] }

/-- Counterexample to C8 as stated: on a failing run the progress sequence is
not monotonically non-decreasing — the error broadcast reports progress 0
after staging already reported 20, and cleanup then reports 100. -/
theorem claim_C8_counterexample :
    ¬ List.Chain' (fun a b => a ≤ b)
      (progressSeq (run_orchestration orchC8Inputs orchWitDel).1) := by
  intro hch
  have heq : progressSeq (run_orchestration orchC8Inputs orchWitDel).1 =
      [5, 5, 15, 15, 20, 20, 0, 100, 100] := rfl
  rw [heq] at hch
  simp [List.chain'_cons] at hch

/-- C8 (amended): on any run of `run_orchestration` in which no pipeline step
raises, the sequence of progress values carried by the broadcast and
state-store events is monotonically non-decreasing and ends at 100. (As
stated the claim fails on failing runs: the failure broadcast carries
progress 0 after earlier events already reported a higher progress.) -/
theorem claim_C8_amended (i : OrchInputs) (d : String → Bool)
    (hok : (orchBody i).2.1 = none) :
    List.Chain' (fun a b => a ≤ b) (progressSeq (run_orchestration i d).1) ∧
    (progressSeq (run_orchestration i d).1).getLast? = some 100 := by
  cases hpr : i.profilerR with
  | err m1 =>
    have hx : (orchBody i).2.1 = some m1 := by
      unfold orchBody
      rw [hpr]
    rw [hx] at hok
    exact Option.noConfusion hok
  | ok =>
    cases hst : i.stagingR with
    | err m1 =>
      have hx : (orchBody i).2.1 = some m1 := by
        unfold orchBody
        rw [hpr, hst]
      rw [hx] at hok
      exact Option.noConfusion hok
    | ok =>
      cases hmp : i.mapperR with
      | err m1 =>
        have hx : (orchBody i).2.1 = some m1 := by
          unfold orchBody
          rw [hpr, hst, hmp]
        rw [hx] at hok
        exact Option.noConfusion hok
      | ok =>
        cases heh : i.enableHitl with
        | true =>
          cases hhr : i.hitlR with
          | err m1 =>
            have hx : (orchBody i).2.1 = some m1 := by
              unfold orchBody hitlSegment
              rw [hpr, hst, hmp, heh, hhr]
              all_goals rfl
            rw [hx] at hok
            exact Option.noConfusion hok
          | ok =>
            cases hcr : i.createTablesR with
            | err m1 =>
              have hx : (orchBody i).2.1 = some m1 := by
                unfold orchBody hitlSegment orchTail
                rw [hpr, hst, hmp, heh, hhr, hcr]
                all_goals rfl
              rw [hx] at hok
              exact Option.noConfusion hok
            | ok =>
              cases htr : i.transformR with
              | err m1 =>
                have hx : (orchBody i).2.1 = some m1 := by
                  unfold orchBody hitlSegment orchTail
                  rw [hpr, hst, hmp, heh, hhr, hcr, htr]
                  all_goals rfl
                rw [hx] at hok
                exact Option.noConfusion hok
              | ok =>
                cases her : i.executeR with
                | err m1 =>
                  have hx : (orchBody i).2.1 = some m1 := by
                    unfold orchBody hitlSegment orchTail
                    rw [hpr, hst, hmp, heh, hhr, hcr, htr, her]
                    all_goals rfl
                  rw [hx] at hok
                  exact Option.noConfusion hok
                | ok =>
                  cases hvr : i.validatorR with
                  | err m1 =>
                    have hx : (orchBody i).2.1 = some m1 := by
                      unfold orchBody hitlSegment orchTail
                      rw [hpr, hst, hmp, heh, hhr, hcr, htr, her, hvr]
                      all_goals rfl
                    rw [hx] at hok
                    exact Option.noConfusion hok
                  | ok =>
                    have hbody : orchBody i = (evProfiler ++ evStaging ++ evMapper ++ evHitl true ++ (evCreate ++ evTransform ++ evExecute i.nTransform ++ evValidator ++ evPublish ++ evFeedback), none, i.profiledTables) := by
                      unfold orchBody hitlSegment orchTail
                      rw [hpr, hst, hmp, heh, hhr, hcr, htr, her, hvr]
                      all_goals rfl
                    have h1 : (run_orchestration i d).1 = evProfiler ++ evStaging ++ evMapper ++ evHitl true ++ (evCreate ++ evTransform ++ evExecute i.nTransform ++ evValidator ++ evPublish ++ evFeedback) ++ [OrchEvent.ws "completed" "success" 100, OrchEvent.markComplete] ++ cleanupEv i.profiledTables d := by
                      unfold run_orchestration
                      rw [hbody]
                    have hflat : progressSeq (evProfiler ++ evStaging ++ evMapper ++ evHitl true ++ (evCreate ++ evTransform ++ evExecute i.nTransform ++ evValidator ++ evPublish ++ evFeedback) ++ [OrchEvent.ws "completed" "success" 100, OrchEvent.markComplete] ++ cleanupEv i.profiledTables d) = [5, 5, 15, 15, 20, 20, 30, 30, 35, 35, 45, 45, 50, 50, 55, 55, 60, 60, 65, 65, 70, 70, 75, 75, 80, 80] ++ ((List.range i.nTransform).map (fun idx => 80 + ((idx + 1) * 10) / i.nTransform) ++ [90, 90, 92, 92, 95, 95, 97, 98, 98, 99, 99, 100, 100, 100]) := by
                      simp only [evExecute, progressSeq_append, progressSeq_cleanup, progressSeq_execRunning, List.append_assoc]
                      rfl
                    rw [h1, hflat]
                    refine ⟨progress_flat_chain i.nTransform [5, 5, 15, 15, 20, 20, 30, 30, 35, 35, 45, 45, 50, 50, 55, 55, 60, 60, 65, 65, 70, 70, 75, 75, 80, 80] [90, 90, 92, 92, 95, 95, 97, 98, 98, 99, 99, 100, 100, 100] (by decide) (by decide) (by decide) (by decide), ?_⟩
                    rw [List.getLast?_append_of_ne_nil _ (show (List.range i.nTransform).map (fun idx => 80 + ((idx + 1) * 10) / i.nTransform) ++ [90, 90, 92, 92, 95, 95, 97, 98, 98, 99, 99, 100, 100, 100] ≠ [] by simp)]
                    rw [List.getLast?_append_of_ne_nil _ (show ([90, 90, 92, 92, 95, 95, 97, 98, 98, 99, 99, 100, 100, 100] : List Nat) ≠ [] by simp)]
                    rfl
        | false =>
          cases hcr : i.createTablesR with
          | err m1 =>
            have hx : (orchBody i).2.1 = some m1 := by
              unfold orchBody hitlSegment orchTail
              rw [hpr, hst, hmp, heh, hcr]
              all_goals rfl
            rw [hx] at hok
            exact Option.noConfusion hok
          | ok =>
            cases htr : i.transformR with
            | err m1 =>
              have hx : (orchBody i).2.1 = some m1 := by
                unfold orchBody hitlSegment orchTail
                rw [hpr, hst, hmp, heh, hcr, htr]
                all_goals rfl
              rw [hx] at hok
              exact Option.noConfusion hok
            | ok =>
              cases her : i.executeR with
              | err m1 =>
                have hx : (orchBody i).2.1 = some m1 := by
                  unfold orchBody hitlSegment orchTail
                  rw [hpr, hst, hmp, heh, hcr, htr, her]
                  all_goals rfl
                rw [hx] at hok
                exact Option.noConfusion hok
              | ok =>
                cases hvr : i.validatorR with
                | err m1 =>
                  have hx : (orchBody i).2.1 = some m1 := by
                    unfold orchBody hitlSegment orchTail
                    rw [hpr, hst, hmp, heh, hcr, htr, her, hvr]
                    all_goals rfl
                  rw [hx] at hok
                  exact Option.noConfusion hok
                | ok =>
                  have hbody : orchBody i = (evProfiler ++ evStaging ++ evMapper ++ evHitl false ++ (evCreate ++ evTransform ++ evExecute i.nTransform ++ evValidator ++ evPublish ++ evFeedback), none, i.profiledTables) := by
                    unfold orchBody hitlSegment orchTail
                    rw [hpr, hst, hmp, heh, hcr, htr, her, hvr]
                    all_goals rfl
                  have h1 : (run_orchestration i d).1 = evProfiler ++ evStaging ++ evMapper ++ evHitl false ++ (evCreate ++ evTransform ++ evExecute i.nTransform ++ evValidator ++ evPublish ++ evFeedback) ++ [OrchEvent.ws "completed" "success" 100, OrchEvent.markComplete] ++ cleanupEv i.profiledTables d := by
                    unfold run_orchestration
                    rw [hbody]
                  have hflat : progressSeq (evProfiler ++ evStaging ++ evMapper ++ evHitl false ++ (evCreate ++ evTransform ++ evExecute i.nTransform ++ evValidator ++ evPublish ++ evFeedback) ++ [OrchEvent.ws "completed" "success" 100, OrchEvent.markComplete] ++ cleanupEv i.profiledTables d) = [5, 5, 15, 15, 20, 20, 30, 30, 35, 35, 45, 45, 55, 55, 60, 60, 65, 65, 70, 70, 75, 75, 80, 80] ++ ((List.range i.nTransform).map (fun idx => 80 + ((idx + 1) * 10) / i.nTransform) ++ [90, 90, 92, 92, 95, 95, 97, 98, 98, 99, 99, 100, 100, 100]) := by
                    simp only [evExecute, progressSeq_append, progressSeq_cleanup, progressSeq_execRunning, List.append_assoc]
                    rfl
                  rw [h1, hflat]
                  refine ⟨progress_flat_chain i.nTransform [5, 5, 15, 15, 20, 20, 30, 30, 35, 35, 45, 45, 55, 55, 60, 60, 65, 65, 70, 70, 75, 75, 80, 80] [90, 90, 92, 92, 95, 95, 97, 98, 98, 99, 99, 100, 100, 100] (by decide) (by decide) (by decide) (by decide), ?_⟩
                  rw [List.getLast?_append_of_ne_nil _ (show (List.range i.nTransform).map (fun idx => 80 + ((idx + 1) * 10) / i.nTransform) ++ [90, 90, 92, 92, 95, 95, 97, 98, 98, 99, 99, 100, 100, 100] ≠ [] by simp)]
                  rw [List.getLast?_append_of_ne_nil _ (show ([90, 90, 92, 92, 95, 95, 97, 98, 98, 99, 99, 100, 100, 100] : List Nat) ≠ [] by simp)]
                  rfl

/-- A fully successful run with HITL enabled and three transform queries. -/
def orchC8OkInputs : OrchInputs :=
  { profilerR := .ok, stagingR := .ok, stagedBeforeFail := 0, mapperR := .ok,
    enableHitl := true, hitlR := .ok, createTablesR := .ok, transformR := .ok,
    nTransform := 3, executedBeforeFail := 0, executeR := .ok,
    validatorR := .ok, feedbackR := .ok, profiledTables := ["stg_a"] }

/-- Witness for the amended C8 at a concrete fully-successful run. -/
theorem claim_C8_amended_witness :
    (orchBody orchC8OkInputs).2.1 = none ∧
    (List.Chain' (fun a b => a ≤ b)
        (progressSeq (run_orchestration orchC8OkInputs orchWitDel).1) ∧
      (progressSeq (run_orchestration orchC8OkInputs orchWitDel).1).getLast? = some 100) :=
  ⟨by decide, claim_C8_amended orchC8OkInputs orchWitDel (by decide)⟩

/-! ### HITL agent (`src/hitl_agent/main.py::_wait_for_web_approvals`)

The Firestore store is modelled as a time-indexed document list
`store : Nat → List HitlDoc` (the documents visible at a given elapsed
time); polling advances elapsed time by 2 seconds per iteration, exactly as
`_wait_for_web_approvals` does. Confidences are exact rationals. -/

inductive HitlStatus
  | pending
  | approved
  | rejected
deriving Repr, DecidableEq

/-- One HITL mapping document as stored in Firestore. -/
structure HitlDoc where
  source_table : String
  source_column : String
  target_table : String
  target_column : String
  confidence : ℚ
  rationale : String
  status : HitlStatus
deriving Repr, DecidableEq

/-- `HITLStateStore.get_pending_mappings`: documents with status pending. -/
def get_pending_mappings (docs : List HitlDoc) : List HitlDoc :=
  docs.filter (fun d => decide (d.status = HitlStatus.pending))

/-- `HITLStateStore.get_approved_mappings`: documents with status approved. -/
def get_approved_mappings (docs : List HitlDoc) : List HitlDoc :=
  docs.filter (fun d => decide (d.status = HitlStatus.approved))

/-- `HITLStateStore.all_mappings_reviewed`: no pending documents remain. -/
def all_mappings_reviewed (docs : List HitlDoc) : Bool :=
  (get_pending_mappings docs).length == 0

/-- The `while elapsed_time < timeout` polling loop of
`_wait_for_web_approvals`, returning the final `elapsed_time`: each
iteration first breaks when all mappings are reviewed, otherwise sleeps the
2-second poll interval. Fuel bounds the iteration count (`timeout + 1`
suffices since elapsed time grows by 2 per iteration). -/
def waitLoop (store : Nat → List HitlDoc) (timeout : Nat) : Nat → Nat → Nat
  | 0, e => e
  | fuel + 1, e =>
    if e < timeout then
      if all_mappings_reviewed (store e) then e
      else waitLoop store timeout fuel (e + 2)
    else e

/-- The elapsed time at which `_wait_for_web_approvals` stops polling. -/
def hitlFinalElapsed (store : Nat → List HitlDoc) (timeout : Nat) : Nat :=
  waitLoop store timeout (timeout + 1) 0

/-- One returned approved mapping (the dict rebuilt at lines 124-131). -/
structure HitlMapping where
  source_table : String
  source_column : String
  target_table : String
  target_column : String
  confidence : ℚ
  rationale : String
deriving Repr, DecidableEq

/-- The per-document conversion back to the original format. -/
def hitlConvert (d : HitlDoc) : HitlMapping :=
  { source_table := d.source_table, source_column := d.source_column,
    target_table := d.target_table, target_column := d.target_column,
    confidence := d.confidence, rationale := d.rationale }

/-- `_wait_for_web_approvals`: poll until reviewed or timeout, then return
the conversions of exactly the approved documents. -/
def wait_for_web_approvals (store : Nat → List HitlDoc) (timeout : Nat) :
    List HitlMapping :=
  (get_approved_mappings (store (hitlFinalElapsed store timeout))).map hitlConvert

theorem waitLoop_post (store : Nat → List HitlDoc) (timeout : Nat) :
    ∀ fuel e, timeout ≤ e + 2 * fuel →
      timeout ≤ waitLoop store timeout fuel e ∨
        all_mappings_reviewed (store (waitLoop store timeout fuel e)) = true := by
  intro fuel
  induction fuel with
  | zero =>
    intro e h
    left
    simp only [waitLoop]
    omega
  | succ n ih =>
    intro e h
    simp only [waitLoop]
    by_cases hlt : e < timeout
    · rw [if_pos hlt]
      by_cases hrev : all_mappings_reviewed (store e) = true
      · rw [if_pos hrev]
        exact Or.inr hrev
      · rw [if_neg hrev]
        exact ih (e + 2) (by omega)
    · rw [if_neg hlt]
      left
      omega

/-- C9: when the polling wait ends with some mapping still pending, the
timeout was fully consumed (the loop never broke early), the call still
returns normally, and the returned list is exactly the conversions of the
documents the store marks approved at the end of the wait — a mapping is in
the result iff some approved document converts to it, so every document
pending or rejected at that moment contributes nothing. -/
theorem claim_C9_hitl_timeout (store : Nat → List HitlDoc) (timeout : Nat)
    (hp : get_pending_mappings (store (hitlFinalElapsed store timeout)) ≠ []) :
    timeout ≤ hitlFinalElapsed store timeout ∧
    wait_for_web_approvals store timeout =
      (get_approved_mappings (store (hitlFinalElapsed store timeout))).map hitlConvert ∧
    ∀ m, m ∈ wait_for_web_approvals store timeout ↔
      ∃ doc ∈ store (hitlFinalElapsed store timeout),
        doc.status = HitlStatus.approved ∧ hitlConvert doc = m := by
  refine ⟨?_, rfl, ?_⟩
  · rcases waitLoop_post store timeout (timeout + 1) 0 (by omega) with h | h
    · exact h
    · exfalso
      apply hp
      have hlen : (get_pending_mappings (store (hitlFinalElapsed store timeout))).length = 0 := by
        have h2 := h
        unfold all_mappings_reviewed at h2
        unfold hitlFinalElapsed
        simpa using h2
      exact List.length_eq_zero.mp hlen
  · intro m
    unfold wait_for_web_approvals get_approved_mappings
    rw [List.mem_map]
    constructor
    · rintro ⟨doc, hdoc, rfl⟩
      rw [List.mem_filter] at hdoc
      exact ⟨doc, hdoc.1, by simpa using hdoc.2, rfl⟩
    · rintro ⟨doc, hdoc, hst, rfl⟩
      exact ⟨doc, List.mem_filter.mpr ⟨hdoc, by simpa using hst⟩, rfl⟩

/-- A store with three candidate documents of which only one has been
approved when the wait ends (it never changes over time). -/
def hitlWitStore : Nat → List HitlDoc := fun _ =>
  [{ source_table := "borrower", source_column := "borrower.borrower_id",
     target_table := "dim_borrower", target_column := "dim_borrower.borrower_key",
     confidence := 1, rationale := "exact id match", status := .approved },
   { source_table := "loan", source_column := "loan.loan_amount",
     target_table := "fact_loan_snapshot",
     target_column := "fact_loan_snapshot.outstanding_principal",
     confidence := 1, rationale := "monetary value match", status := .pending },
   { source_table := "guarantor", source_column := "guarantor.guarantor_name",
     target_table := "dim_guarantor",
     target_column := "dim_guarantor.guarantor_name",
     confidence := 1, rationale := "name match", status := .pending }]

/-- Witness for C9: with three candidates, one approved and two still
pending, and a 4-second timeout, the wait consumes the timeout and returns
exactly the one approved mapping. -/
theorem claim_C9_witness :
    get_pending_mappings (hitlWitStore (hitlFinalElapsed hitlWitStore 4)) ≠ [] ∧
    (4 ≤ hitlFinalElapsed hitlWitStore 4 ∧
      wait_for_web_approvals hitlWitStore 4 =
        (get_approved_mappings (hitlWitStore (hitlFinalElapsed hitlWitStore 4))).map hitlConvert ∧
      ∀ m, m ∈ wait_for_web_approvals hitlWitStore 4 ↔
        ∃ doc ∈ hitlWitStore (hitlFinalElapsed hitlWitStore 4),
          doc.status = HitlStatus.approved ∧ hitlConvert doc = m) :=
  ⟨by decide, claim_C9_hitl_timeout hitlWitStore 4 (by decide)⟩

/-! ### Profiler agent (`src/profiler_agent/main.py::run_profiler`)

The schema's entity list and the filesystem are the collaborators: each
table name maps to a `CsvOutcome` — the CSV file may be missing
(`os.path.exists` false), unreadable (the `pd.read_csv` block raises), or
readable with a row count and column list. -/

/-- One entity of `schema.json`. -/
structure SchemaEntity where
  name : String
  columns : List String
deriving Repr, DecidableEq

/-- What reading `<base_dir>/<name>.csv` yields. -/
inductive CsvOutcome
  | missing
  | readError (msg : String)
  | ok (rows : Nat) (cols : List String)
deriving Repr, DecidableEq

/-- One entry of the returned `tables` list. -/
structure TableProfile where
  table_name : String
  column_count : Nat
  row_count : Nat
  columns : List String
deriving Repr, DecidableEq

/-- The returned profiling results dictionary. -/
structure ProfileResults where
  run_id : String
  status : String
  tables : List TableProfile
deriving Repr, DecidableEq

/-- `next((e["columns"] for e in entities if e["name"] == table_name), [])`. -/
def originalColumnsOf (entities : List SchemaEntity) (table_name : String) :
    List String :=
  match entities.find? (fun e => e.name == table_name) with
  | some e => e.columns
  | none => []

/-- Whether an entity is counted in `tables_skipped` (missing CSV or a
reading error). -/
def csvSkipped (fs : String → CsvOutcome) (en : SchemaEntity) : Bool :=
  match fs en.name with
  | .ok _ _ => false
  | _ => true

/-- The `tables` entry produced for an entity, if its CSV is readable. -/
def profRow (fs : String → CsvOutcome) (entities : List SchemaEntity)
    (en : SchemaEntity) : Option TableProfile :=
  match fs en.name with
  | .ok rows cols =>
    some { table_name := en.name, column_count := cols.length,
           row_count := rows, columns := originalColumnsOf entities en.name }
  | _ => none

/-- One iteration of the entity loop: accumulated `tables`,
`tables_processed`, `tables_skipped`. -/
def profStep (fs : String → CsvOutcome) (entities : List SchemaEntity)
    (acc : List TableProfile × Nat × Nat) (en : SchemaEntity) :
    List TableProfile × Nat × Nat :=
  match fs en.name with
  | .missing => (acc.1, acc.2.1, acc.2.2 + 1)
  | .readError _ => (acc.1, acc.2.1, acc.2.2 + 1)
  | .ok rows cols =>
    (acc.1 ++ [{ table_name := en.name, column_count := cols.length,
                 row_count := rows,
                 columns := originalColumnsOf entities en.name }],
     acc.2.1 + 1, acc.2.2)

/-- `run_profiler`: status is set to `"success"` before the loop and never
changed; the loop never raises, skipping unreadable tables. Returns the
results dictionary together with the `tables_processed` and
`tables_skipped` counters. -/
def run_profiler (run_id : String) (entities : List SchemaEntity)
    (fs : String → CsvOutcome) : ProfileResults × Nat × Nat :=
  match entities.foldl (profStep fs entities) ([], 0, 0) with
  | (tabs, p, s) =>
    ({ run_id := run_id, status := "success", tables := tabs }, p, s)

theorem profFold_spec (fs : String → CsvOutcome) (entities : List SchemaEntity) :
    ∀ (l : List SchemaEntity) (acc : List TableProfile × Nat × Nat),
      l.foldl (profStep fs entities) acc =
        (acc.1 ++ l.filterMap (profRow fs entities),
         acc.2.1 + l.countP (fun en => (profRow fs entities en).isSome),
         acc.2.2 + l.countP (csvSkipped fs)) := by
  intro l
  induction l with
  | nil => intro acc; simp
  | cons en rest ih =>
    intro acc
    rw [List.foldl_cons, ih]
    rcases acc with ⟨tabs, p, s⟩
    cases hfs : fs en.name with
    | missing =>
      simp [profStep, profRow, csvSkipped, hfs, List.countP_cons]
      omega
    | readError m =>
      simp [profStep, profRow, csvSkipped, hfs, List.countP_cons]
      omega
    | ok rows cols =>
      simp [profStep, profRow, csvSkipped, hfs, List.countP_cons]
      omega

theorem profRow_some {fs : String → CsvOutcome} {entities : List SchemaEntity}
    {en : SchemaEntity} {t : TableProfile}
    (h : profRow fs entities en = some t) :
    ∃ rows cols, fs en.name = CsvOutcome.ok rows cols ∧ t.table_name = en.name := by
  unfold profRow at h
  cases hfs : fs en.name with
  | missing => rw [hfs] at h; exact Option.noConfusion h
  | readError m => rw [hfs] at h; exact Option.noConfusion h
  | ok rows cols =>
    rw [hfs] at h
    refine ⟨rows, cols, rfl, ?_⟩
    have h2 := Option.some.inj h
    rw [← h2]

/-- C10: when some entity declared in the schema has no CSV file,
`run_profiler` still returns (status stays `"success"`), that table is
absent from the returned `tables` list, the `tables_skipped` counter counts
exactly the unreadable entities (so it is positive), and every entity whose
CSV is readable still gets its profile entry. -/
theorem claim_C10_profiler_skip (run_id : String) (entities : List SchemaEntity)
    (fs : String → CsvOutcome) (e : SchemaEntity) (he : e ∈ entities)
    (hm : fs e.name = CsvOutcome.missing) :
    (run_profiler run_id entities fs).1.status = "success" ∧
    e.name ∉ (run_profiler run_id entities fs).1.tables.map TableProfile.table_name ∧
    (run_profiler run_id entities fs).2.2 = entities.countP (csvSkipped fs) ∧
    0 < (run_profiler run_id entities fs).2.2 ∧
    ∀ e2 ∈ entities, ∀ rows cols, fs e2.name = CsvOutcome.ok rows cols →
      e2.name ∈ (run_profiler run_id entities fs).1.tables.map TableProfile.table_name := by
  have hrp : run_profiler run_id entities fs =
      ({ run_id := run_id, status := "success",
         tables := entities.filterMap (profRow fs entities) },
       entities.countP (fun en => (profRow fs entities en).isSome),
       entities.countP (csvSkipped fs)) := by
    unfold run_profiler
    rw [profFold_spec]
    simp
  rw [hrp]
  refine ⟨rfl, ?_, rfl, ?_, ?_⟩
  · intro hmem
    rw [List.mem_map] at hmem
    obtain ⟨t, ht, hname⟩ := hmem
    rw [List.mem_filterMap] at ht
    obtain ⟨en, hen, hrow⟩ := ht
    obtain ⟨rows, cols, hok, htn⟩ := profRow_some hrow
    rw [htn] at hname
    rw [← hname] at hm
    rw [hok] at hm
    exact CsvOutcome.noConfusion hm
  · refine List.countP_pos_iff.mpr ⟨e, he, ?_⟩
    unfold csvSkipped
    rw [hm]
  · intro e2 he2 rows cols hok
    rw [List.mem_map]
    refine ⟨{ table_name := e2.name, column_count := cols.length,
              row_count := rows, columns := originalColumnsOf entities e2.name },
           ?_, rfl⟩
    rw [List.mem_filterMap]
    refine ⟨e2, he2, ?_⟩
    unfold profRow
    rw [hok]

/-- Three schema entities, of which table `D` has no CSV data file while
`A` and `B` are readable. -/
def profWitEntities : List SchemaEntity :=
  [{ name := "A", columns := ["a1", "a2"] },
   { name := "B", columns := ["b1"] },
   { name := "D", columns := ["d1"] }]

def profWitFs : String → CsvOutcome := fun n =>
  if n == "D" then CsvOutcome.missing else CsvOutcome.ok 10 ["c1", "c2"]

/-- Witness for C10: with table `D` declared but its file absent, profiling
still succeeds, `D` is skipped with `tables_skipped = 1`, and `A` and `B`
keep their entries. -/
theorem claim_C10_witness :
    ({ name := "D", columns := ["d1"] } : SchemaEntity) ∈ profWitEntities ∧
    profWitFs "D" = CsvOutcome.missing ∧
    (run_profiler "r1" profWitEntities profWitFs).2.2 = 1 ∧
    ((run_profiler "r1" profWitEntities profWitFs).1.status = "success" ∧
      ({ name := "D", columns := ["d1"] } : SchemaEntity).name ∉
        (run_profiler "r1" profWitEntities profWitFs).1.tables.map TableProfile.table_name ∧
      (run_profiler "r1" profWitEntities profWitFs).2.2 =
        profWitEntities.countP (csvSkipped profWitFs) ∧
      0 < (run_profiler "r1" profWitEntities profWitFs).2.2 ∧
      ∀ e2 ∈ profWitEntities, ∀ rows cols, profWitFs e2.name = CsvOutcome.ok rows cols →
        e2.name ∈ (run_profiler "r1" profWitEntities profWitFs).1.tables.map
          TableProfile.table_name) :=
  ⟨by decide, by decide, by decide,
    claim_C10_profiler_skip "r1" profWitEntities profWitFs
      { name := "D", columns := ["d1"] } (by decide) (by decide)⟩
